import Mathlib

/-!
# Verification of the red-black-tree and Huffman cores of `Project-2.py`

This file gives a shallow embedding, in Lean 4, of the two algorithmic cores of
the repository's single source file `src/Project-2.py`:

* the insert-only red-black tree (`RBNode`, `RedBlackTree.left_rotate`,
  `RedBlackTree.right_rotate`, `RedBlackTree.insert_fixup`,
  `RedBlackTree.insert`, lines 84-179), and
* the Huffman builder (`HuffmanNode`, `build_huffman_tree`,
  `build_huffman_codes`, lines 42-78).

The Python tree is a pointer structure with parent back-references that are
used only to walk upward during `insert_fixup` and to relink subtrees during
rotations.  The embedding therefore represents the tree as an inductive value
(`RBTree`) and a position in it as a zipper: the chain of parent pointers above
the node `z` under repair is exactly the list of `Frame`s from `z` to the
root, innermost first.  Reading a frame's fields corresponds to reading
`z.parent`'s fields through the back-reference; rebuilding a frame around a
subtree corresponds to the child/parent relinking that the Python code does
imperatively.  Machine state that the Python mutates in place (colors, child
links) is passed explicitly.

Python compares keys with `<` on `str`, which is lexicographic on code
points.  `listLtb`/`pyLtb` below implement exactly that comparison as a
computable Boolean and are proved equivalent to Mathlib's linear order on
`String` (which is also lexicographic on code points).
-/

/-- Python string comparison `a < b`, lexicographic on code points, on the
underlying character lists: at the first differing position the characters
decide, and a proper prefix is smaller. -/
def listLtb : List Char → List Char → Bool
  | _, [] => false
  | [], _ :: _ => true
  | a :: as, b :: bs => if a < b then true else if b < a then false else listLtb as bs

/-- Python's `a < b` on `str` values. -/
def pyLtb (a b : String) : Bool := listLtb a.data b.data

theorem listLtb_iff_lt (as : List Char) : ∀ bs : List Char, listLtb as bs = true ↔ List.lt as bs := by
  induction as with
  | nil =>
    intro bs
    cases bs with
    | nil =>
      constructor
      · intro h; simp [listLtb] at h
      · intro h; cases h
    | cons b bs =>
      constructor
      · intro _; exact List.lt.nil b bs
      · intro _; rfl
  | cons a as ih =>
    intro bs
    cases bs with
    | nil =>
      constructor
      · intro h; simp [listLtb] at h
      · intro h; cases h
    | cons b bs =>
      by_cases hab : a < b
      · constructor
        · intro _; exact List.lt.head _ _ hab
        · intro _; simp [listLtb, hab]
      · by_cases hba : b < a
        · constructor
          · intro h; simp [listLtb, hab, hba] at h
          · intro h
            cases h with
            | head _ _ h => exact absurd h hab
            | tail h1 h2 h3 => exact absurd hba h2
        · have hstep : listLtb (a :: as) (b :: bs) = listLtb as bs := by
            simp [listLtb, hab, hba]
          rw [hstep, ih bs]
          constructor
          · intro h; exact List.lt.tail hab hba h
          · intro h
            cases h with
            | head _ _ h => exact absurd h hab
            | tail h1 h2 h3 => exact h3

/-- The Boolean comparison agrees with the mathematical linear order on
`String`. -/
theorem pyLtb_iff_lt (a b : String) : pyLtb a b = true ↔ a < b := by
  rw [pyLtb, listLtb_iff_lt, List.lt_iff_lex_lt, String.lt_iff_toList_lt]
  exact Iff.rfl

theorem pyLtb_false_iff (a b : String) : pyLtb a b = false ↔ b ≤ a := by
  rw [← Bool.not_eq_true, not_iff_comm, pyLtb_iff_lt, not_le]

/-- Node colors, the Python string field `color ∈ Set.insert "red" (Set.insert "black" ∅)`. -/
inductive Color where
  | red
  | black
deriving DecidableEq, Repr

/-- A red-black tree value.  `RBTree.nil` is Python's `None` child reference;
`RBTree.node k c l r` is an `RBNode` with `key = k`, `color = c` and children
`l`, `r`.  The `parent` field of `RBNode` is not stored: it is recovered as
the zipper context of a node's position (see `Frame`). -/
inductive RBTree where
  | nil
  | node (key : String) (color : Color) (l r : RBTree)
deriving DecidableEq, Repr

/-- Which child of its parent a node is. -/
inductive Dir where
  | left
  | right
deriving DecidableEq, Repr

/-- One step of the parent chain above a node: the parent's key and color,
which side the node hangs off the parent (`dir`), and the parent's other
child (`sib`). -/
structure Frame where
  dir : Dir
  pkey : String
  pcolor : Color
  sib : RBTree
deriving DecidableEq, Repr

/-- Rebuild the parent node of `f` around the child `t`. -/
def mkP (f : Frame) (t : RBTree) : RBTree :=
  match f.dir with
  | Dir.left => RBTree.node f.pkey f.pcolor t f.sib
  | Dir.right => RBTree.node f.pkey f.pcolor f.sib t

/-- Rebuild the whole tree from a subtree and its parent chain (innermost
frame first).  This is what the Python pointer structure stores implicitly. -/
def plug : RBTree → List Frame → RBTree
  | t, [] => t
  | t, f :: ctx => plug (mkP f t) ctx

/-- `x and x.color == "red"` on an optional node. -/
def isRedT : RBTree → Bool
  | RBTree.node _ Color.red _ _ => true
  | _ => false

/-- `self.root.color = "black"` / recolor a node black (no-op on `None`). -/
def blackenRoot : RBTree → RBTree
  | RBTree.nil => RBTree.nil
  | RBTree.node k _ l r => RBTree.node k Color.black l r

/-- `RedBlackTree.left_rotate` (lines 96-111), acting on the subtree rooted at
the pivot `x`.  The parent-pointer relinking of lines 103-109 is the act of
putting the returned subtree back in `x`'s position, which the zipper's
`plug` performs.  When `x.right` is `None` the Python returns at line 99
without touching anything: the catch-all branch returns the subtree
unchanged. -/
def left_rotate : RBTree → RBTree
  | RBTree.node xk xc xl (RBTree.node yk yc yl yr) => RBTree.node yk yc (RBTree.node xk xc xl yl) yr
  | t => t

/-- `RedBlackTree.right_rotate` (lines 113-128), mirror image of
`left_rotate`. -/
def right_rotate : RBTree → RBTree
  | RBTree.node yk yc (RBTree.node xk xc xl xr) yr => RBTree.node xk xc xl (RBTree.node yk yc xr yr)
  | t => t

/-- `RedBlackTree.insert_fixup` (lines 130-163).  The node under repair is
`z = RBTree.node zk zc zl zr` (it is always a real node, never `None`); `ctx`
is its parent chain.  The structure mirrors the Python loop:

* empty `ctx`: the `while` guard `z.parent` fails, fall through to the final
  `if self.root: self.root.color = "black"`;
* parent not red: the `while` guard fails, same fall-through;
* parent red, no grandparent: the `break` on line 133, same fall-through;
* otherwise the four CLRS cases, lines 134-161.  Rotating mutates the tree in
  place while `z` keeps referring to the same node object; each case below
  rebuilds the grandparent subtree accordingly.  In the red-uncle case the
  loop continues from the grandparent; in the rotation cases the next loop
  guard is provably false (z's new parent was just recolored black on line
  145 resp. 159), so the loop exits and the final root blackening of lines
  162-163 is applied.  The equations `fixup_caseA_rot_eq` and
  `fixup_caseB_rot_eq` below check each rebuilt shape against
  `left_rotate`/`right_rotate` applied exactly as the source applies them. -/
def insert_fixup (zk : String) (zc : Color) (zl zr : RBTree) (ctx : List Frame) : RBTree :=
  match ctx with
  | [] =>
    -- no parent: the while guard fails; lines 162-163 blacken the root
    blackenRoot (plug (RBTree.node zk zc zl zr) [])
  | [p] =>
    if p.pcolor = Color.red then
      -- red parent but no grandparent: `break` on line 133, then lines 162-163
      blackenRoot (plug (RBTree.node zk zc zl zr) [p])
    else
      -- the while guard fails, lines 162-163
      blackenRoot (plug (RBTree.node zk zc zl zr) [p])
  | p :: g :: rest2 =>
    if p.pcolor = Color.red then
      match g.dir with
      | Dir.left =>
        -- parent is the grandparent's left child; uncle y = g.sib (lines 134-147)
        if isRedT g.sib then
          -- red uncle: recolor parent and uncle black, grandparent red,
          -- continue the loop from the grandparent (lines 136-140)
          insert_fixup g.pkey Color.red
            (blackenRoot (mkP p (RBTree.node zk zc zl zr))) (blackenRoot g.sib) rest2
        else
          match p.dir with
          | Dir.right =>
            -- z is a right child: z = z.parent; left_rotate(z) (lines 142-144),
            -- then recolor and right_rotate the grandparent (lines 145-147).
            -- The loop's next guard checks the color of z's new parent, which
            -- is the node recolored black on line 145, so the loop exits and
            -- lines 162-163 blacken the root.
            blackenRoot (plug (RBTree.node p.pkey p.pcolor p.sib zl)
              (Frame.mk Dir.left zk Color.black (RBTree.node g.pkey Color.red zr g.sib) :: rest2))
          | Dir.left =>
            -- z already aligned: recolor and right_rotate the grandparent
            -- (lines 145-147); z itself is unchanged and its new parent is
            -- black, so the loop exits as above.
            blackenRoot (plug (RBTree.node zk zc zl zr)
              (Frame.mk Dir.left p.pkey Color.black (RBTree.node g.pkey Color.red p.sib g.sib) :: rest2))
      | Dir.right =>
        -- mirror image: parent is the grandparent's right child (lines 148-161)
        if isRedT g.sib then
          insert_fixup g.pkey Color.red
            (blackenRoot g.sib) (blackenRoot (mkP p (RBTree.node zk zc zl zr))) rest2
        else
          match p.dir with
          | Dir.left =>
            -- z is a left child: z = z.parent; right_rotate(z) (lines 156-158),
            -- then recolor and left_rotate the grandparent (lines 159-161)
            blackenRoot (plug (RBTree.node p.pkey p.pcolor zr p.sib)
              (Frame.mk Dir.right zk Color.black (RBTree.node g.pkey Color.red g.sib zl) :: rest2))
          | Dir.right =>
            blackenRoot (plug (RBTree.node zk zc zl zr)
              (Frame.mk Dir.right p.pkey Color.black (RBTree.node g.pkey Color.red g.sib p.sib) :: rest2))
    else
      -- the while guard fails: parent is black; lines 162-163
      blackenRoot (plug (RBTree.node zk zc zl zr) (p :: g :: rest2))

/-- The descent of `RedBlackTree.insert`, lines 167-171: walk down from the
root comparing the raw key with each node's key, and record the parent chain
of the `None` position reached.  `x = x.left if key < x.key else x.right`. -/
def descend : RBTree → String → List Frame → List Frame
  | RBTree.nil, _, ctx => ctx
  | RBTree.node k c l r, key, ctx =>
    if pyLtb key k then descend l key (Frame.mk Dir.left k c r :: ctx)
    else descend r key (Frame.mk Dir.right k c l :: ctx)

/-- `RedBlackTree.insert` (lines 165-179) for a string key: `str(key) = key`,
the new node is red with `None` children, it is attached at the `None`
position the descent reached (lines 172-178 re-derive that position from `y`;
the zipper already records it), and `insert_fixup` repairs the tree. -/
def RedBlackTree.insert (t : RBTree) (key : String) : RBTree :=
  insert_fixup key Color.red RBTree.nil RBTree.nil (descend t key [])

/-- Repeated insertion into an initially empty `RedBlackTree`. -/
def build (keys : List String) : RBTree :=
  keys.foldl RedBlackTree.insert RBTree.nil

-- Sanity equations: the rebuilt shapes inside `insert_fixup` are exactly what
-- the source's rotation calls produce.

/-- Case `z.parent == z.parent.parent.left`, `z == z.parent.right`
(lines 142-147): first `left_rotate` at the parent, then recolor, then
`right_rotate` at the grandparent, matches the rebuilt subtree used in
`insert_fixup`. -/
theorem fixup_caseA_rot_eq (zk : String) (zc : Color) (zl zr : RBTree)
    (pk : String) (psib : RBTree) (gk : String) (gsib : RBTree) (pc : Color) :
    right_rotate (RBTree.node gk Color.red
      (blackenRoot (left_rotate (RBTree.node pk pc psib (RBTree.node zk zc zl zr)))) gsib) =
    mkP (Frame.mk Dir.left zk Color.black (RBTree.node gk Color.red zr gsib))
      (RBTree.node pk pc psib zl) := by
  rfl

/-- Mirror case (lines 156-161): `right_rotate` at the parent then
`left_rotate` at the grandparent. -/
theorem fixup_caseB_rot_eq (zk : String) (zc : Color) (zl zr : RBTree)
    (pk : String) (psib : RBTree) (gk : String) (gsib : RBTree) (pc : Color) :
    left_rotate (RBTree.node gk Color.red gsib
      (blackenRoot (right_rotate (RBTree.node pk pc (RBTree.node zk zc zl zr) psib)))) =
    mkP (Frame.mk Dir.right zk Color.black (RBTree.node gk Color.red gsib zl))
      (RBTree.node pk pc zr psib) := by
  rfl


/-!
## Concrete insertion scenario (claim C4) and rotation guards (claim C9)
-/

/-- Claim C4 as stated is false: inserting `"10"`, `"20"`, `"30"` in ascending
order does produce root `"20"` (black) with children `"10"` and `"30"`, but
the two children are red, not black — the uncle-absent rotation case recolors
only the new root of the rotated subtree black (line 145) and the former
grandparent red (line 146), and the final step of `insert_fixup` blackens
only the root.  (Inserting the Python `int`s `10, 20, 30` instead would not
even produce a tree: the second insert raises `TypeError`, see
`insertPy_spec`.) -/
theorem insert_10_20_30_counterexample :
    ¬ (build ["10", "20", "30"] =
      RBTree.node "20" Color.black
        (RBTree.node "10" Color.black RBTree.nil RBTree.nil)
        (RBTree.node "30" Color.black RBTree.nil RBTree.nil)) := by
  decide

/-- Amended claim C4: inserting the keys `"10"`, `"20"`, `"30"` in ascending
order into an empty tree yields root `"20"` black, left child `"10"` red,
right child `"30"` red. -/
theorem insert_10_20_30_result :
    build ["10", "20", "30"] =
      RBTree.node "20" Color.black
        (RBTree.node "10" Color.red RBTree.nil RBTree.nil)
        (RBTree.node "30" Color.red RBTree.nil RBTree.nil) := by
  decide

/-- Claim C9: `left_rotate` on a node with no right child and `right_rotate`
on a node with no left child return at line 99 resp. 115 before touching any
pointer, so the entire tree — the rotated subtree in any position `ctx`,
hence every key, color, child link and parent link — is unchanged, with no
error raised. -/
theorem rotate_absent_child_noop (k : String) (c : Color) (l r : RBTree) (ctx : List Frame) :
    plug (left_rotate (RBTree.node k c l RBTree.nil)) ctx =
      plug (RBTree.node k c l RBTree.nil) ctx ∧
    plug (right_rotate (RBTree.node k c RBTree.nil r)) ctx =
      plug (RBTree.node k c RBTree.nil r) ctx :=
  ⟨rfl, rfl⟩

/-!
## Dynamic typing of `RedBlackTree.insert` (claim C10)

`insert` stores `str(key)` as the node key (line 166) but compares the raw
`key` argument against stored keys during descent (line 171).  A Python value
here is a `str` or an `int`; `int < str` raises `TypeError`.
-/

/-- A Python value passed to `RedBlackTree.insert`. -/
inductive PyVal where
  | str (s : String)
  | int (n : Int)
deriving DecidableEq, Repr

/-- Python `str(key)`. -/
def pyToStr : PyVal → String
  | PyVal.str s => s
  | PyVal.int n => toString n

/-- Python `key < other` for `other : str`: defined for `str` keys,
`TypeError` for `int` keys. -/
def pyLtStr : PyVal → String → Except String Bool
  | PyVal.str a, b => Except.ok (pyLtb a b)
  | PyVal.int _, _ => Except.error "TypeError"

/-- The descent loop of lines 167-171 with a raw Python key: each comparison
`key < x.key` may raise. -/
def descendPy : RBTree → PyVal → List Frame → Except String (List Frame)
  | RBTree.nil, _, ctx => Except.ok ctx
  | RBTree.node k c l r, key, ctx =>
    match pyLtStr key k with
    | Except.error e => Except.error e
    | Except.ok b =>
      if b then descendPy l key (Frame.mk Dir.left k c r :: ctx)
      else descendPy r key (Frame.mk Dir.right k c l :: ctx)

/-- `RedBlackTree.insert` on a raw Python value: the stored key is
`str(key)`, and the descent may raise before the node is attached. -/
def RedBlackTree.insertPy (t : RBTree) (key : PyVal) : Except String RBTree :=
  match descendPy t key [] with
  | Except.error e => Except.error e
  | Except.ok ctx => Except.ok (insert_fixup (pyToStr key) Color.red RBTree.nil RBTree.nil ctx)

theorem descendPy_str (t : RBTree) (s : String) :
    ∀ ctx, descendPy t (PyVal.str s) ctx = Except.ok (descend t s ctx) := by
  induction t with
  | nil => intro ctx; rfl
  | node k c l r ihl ihr =>
    intro ctx
    simp only [descendPy, pyLtStr, descend]
    by_cases h : pyLtb s k
    · simp [h, ihl]
    · simp [h, ihr]

/-- Claim C10: (1) inserting an `int` key into a non-empty tree raises
`TypeError` during the first comparison of the descent; (2) inserting a `str`
key always succeeds and agrees with the string-level `insert`; (3) inserting
any value into an empty tree succeeds, storing `str(key)` as the key of the
new black root — so every key held in the tree is a string. -/
theorem insertPy_spec :
    (∀ (t : RBTree) (n : Int), t ≠ RBTree.nil →
      RedBlackTree.insertPy t (PyVal.int n) = Except.error "TypeError") ∧
    (∀ (t : RBTree) (s : String),
      RedBlackTree.insertPy t (PyVal.str s) = Except.ok (RedBlackTree.insert t s)) ∧
    (∀ key : PyVal, RedBlackTree.insertPy RBTree.nil key =
      Except.ok (RBTree.node (pyToStr key) Color.black RBTree.nil RBTree.nil)) := by
  refine ⟨?_, ?_, ?_⟩
  · intro t n ht
    match t with
    | RBTree.nil => exact absurd rfl ht
    | RBTree.node k c l r => rfl
  · intro t s
    simp [RedBlackTree.insertPy, descendPy_str, RedBlackTree.insert, pyToStr]
  · intro key
    rfl

/-- Witness for `insertPy_spec` at a concrete non-empty tree and key. -/
theorem insertPy_spec_witness :
    RBTree.node "a" Color.black RBTree.nil RBTree.nil ≠ RBTree.nil ∧
    RedBlackTree.insertPy (RBTree.node "a" Color.black RBTree.nil RBTree.nil) (PyVal.int 3) =
      Except.error "TypeError" :=
  ⟨by decide, insertPy_spec.1 (RBTree.node "a" Color.black RBTree.nil RBTree.nil) 3 (by decide)⟩

/-!
## The red-black invariants (claim C1)
-/

/-- Black contribution of a color to a path's black count. -/
def bAdd : Color → Nat
  | Color.red => 0
  | Color.black => 1

/-- `IsBH t n`: every downward path from the root of `t` to an absent-child
position passes through exactly `n` black nodes. -/
inductive IsBH : RBTree → Nat → Prop where
  | nil : IsBH RBTree.nil 0
  | node (k : String) (c : Color) (l r : RBTree) (n : Nat) :
      IsBH l n → IsBH r n → IsBH (RBTree.node k c l r) (n + bAdd c)

/-- No red node anywhere in the tree has a red child. -/
def NoRedRed : RBTree → Prop
  | RBTree.nil => True
  | RBTree.node _ c l r =>
      (c = Color.red → isRedT l = false ∧ isRedT r = false) ∧ NoRedRed l ∧ NoRedRed r

/-- The red-black invariants: black root, no red node with a red child, and a
consistent black count along every downward path (from every node: `IsBH` at
the root forces the same property at each subtree). -/
def RBInv (t : RBTree) : Prop :=
  isRedT t = false ∧ NoRedRed t ∧ ∃ n, IsBH t n

theorem isRedT_blackenRoot (t : RBTree) : isRedT (blackenRoot t) = false := by
  cases t with
  | nil => rfl
  | node k c l r => rfl

theorem NoRedRed_blackenRoot {t : RBTree} (h : NoRedRed t) : NoRedRed (blackenRoot t) := by
  cases t with
  | nil => exact trivial
  | node k c l r =>
    simp only [NoRedRed] at h
    exact ⟨fun hc => (nomatch hc), h.2.1, h.2.2⟩

theorem IsBH_red_node {k : String} {l r : RBTree} {n : Nat} :
    IsBH (RBTree.node k Color.red l r) n ↔ IsBH l n ∧ IsBH r n := by
  constructor
  · intro h
    cases h with
    | node _ _ _ _ m hl hr => exact ⟨hl, hr⟩
  · intro ⟨hl, hr⟩
    exact IsBH.node k Color.red l r n hl hr

theorem IsBH_node_bAdd {k : String} {c : Color} {l r : RBTree} {n : Nat}
    (hl : IsBH l n) (hr : IsBH r n) : IsBH (RBTree.node k c l r) (n + bAdd c) :=
  IsBH.node k c l r n hl hr

theorem IsBH_blackenRoot {t : RBTree} {n : Nat} (h : IsBH t n) :
    ∃ m, IsBH (blackenRoot t) m := by
  cases h with
  | nil => exact ⟨0, IsBH.nil⟩
  | node k c l r m hl hr => exact ⟨m + 1, IsBH.node k Color.black l r m hl hr⟩

theorem IsBH_blackenRoot_red {t : RBTree} {n : Nat} (hred : isRedT t = true)
    (h : IsBH t n) : IsBH (blackenRoot t) (n + 1) := by
  cases h with
  | nil => exact absurd hred (by decide)
  | node k c l r m hl hr =>
    cases c with
    | red => exact IsBH.node k Color.black l r m hl hr
    | black => exact absurd hred (by simp [isRedT])

/-- `headBlack ctx`: the immediate parent (if any) recorded in `ctx` is
black. -/
def headBlack : List Frame → Prop
  | [] => True
  | f :: _ => f.pcolor = Color.black

/-- The sibling stored in a frame is well-formed at black count `n`. -/
def sibOK (f : Frame) (n : Nat) : Prop :=
  NoRedRed f.sib ∧ IsBH f.sib n ∧ (f.pcolor = Color.red → isRedT f.sib = false)

/-- The parent chain of a hole of black count `n` inside a tree that
satisfies the red-black invariants except possibly for a red-red violation
between the hole's occupant and the innermost frame: siblings are
well-formed, a red parent never has a red parent itself, and the black
counts of the frames are consistent. -/
def ValidCtx : List Frame → Nat → Prop
  | [], _ => True
  | f :: rest, n =>
      sibOK f n ∧ (f.pcolor = Color.red → headBlack rest) ∧ ValidCtx rest (n + bAdd f.pcolor)

theorem NoRedRed_mkP {f : Frame} {t : RBTree} (hsib : NoRedRed f.sib)
    (ht : NoRedRed t)
    (hred : f.pcolor = Color.red → isRedT f.sib = false ∧ isRedT t = false) :
    NoRedRed (mkP f t) := by
  obtain ⟨d, k, c, sib⟩ := f
  cases d with
  | left => exact ⟨fun hc => ⟨((hred hc).2), ((hred hc).1)⟩, ht, hsib⟩
  | right => exact ⟨fun hc => ⟨((hred hc).1), ((hred hc).2)⟩, hsib, ht⟩

theorem IsBH_mkP {f : Frame} {t : RBTree} {n : Nat} (hsib : IsBH f.sib n)
    (ht : IsBH t n) : IsBH (mkP f t) (n + bAdd f.pcolor) := by
  obtain ⟨d, k, c, sib⟩ := f
  cases d with
  | left => exact IsBH.node k c t sib n ht hsib
  | right => exact IsBH.node k c sib t n hsib ht

theorem isRedT_mkP_black {f : Frame} {t : RBTree} (h : f.pcolor = Color.black) :
    isRedT (mkP f t) = false := by
  obtain ⟨d, k, c, sib⟩ := f
  cases h
  cases d with
  | left => rfl
  | right => rfl

/-- Plugging a well-formed subtree into a valid context yields a tree with no
red-red violation and a consistent black count, provided the boundary is
safe: either the innermost frame is black or the subtree's root is. -/
theorem plug_props : ∀ (ctx : List Frame) (t : RBTree) (n : Nat),
    ValidCtx ctx n → IsBH t n → NoRedRed t →
    (headBlack ctx ∨ isRedT t = false) →
    NoRedRed (plug t ctx) ∧ ∃ m, IsBH (plug t ctx) m := by
  intro ctx
  induction ctx with
  | nil =>
    intro t n _ hbh hnr _
    exact ⟨hnr, n, hbh⟩
  | cons f rest ih =>
    intro t n hv hbh hnr hsafe
    obtain ⟨⟨hsnr, hsbh, hsred⟩, hnext, hrest⟩ := hv
    have htred : f.pcolor = Color.red → isRedT t = false := by
      intro hf
      cases hsafe with
      | inl h =>
        rw [headBlack] at h
        rw [hf] at h
        cases h
      | inr h => exact h
    have hnr' : NoRedRed (mkP f t) :=
      NoRedRed_mkP hsnr hnr (fun hc => ⟨hsred hc, htred hc⟩)
    have hbh' : IsBH (mkP f t) (n + bAdd f.pcolor) := IsBH_mkP hsbh hbh
    have hsafe' : headBlack rest ∨ isRedT (mkP f t) = false := by
      cases hc : f.pcolor with
      | red => exact Or.inl (hnext hc)
      | black => exact Or.inr (isRedT_mkP_black hc)
    exact ih (mkP f t) (n + bAdd f.pcolor) hrest hbh' hnr' hsafe'

theorem RBInv_blackenRoot {t : RBTree} (hnr : NoRedRed t) {n : Nat}
    (hbh : IsBH t n) : RBInv (blackenRoot t) :=
  ⟨isRedT_blackenRoot t, NoRedRed_blackenRoot hnr, IsBH_blackenRoot hbh⟩

/-- Exiting the fixup loop: the subtree `t` sits under a black frame `f`,
everything is well-formed, so after blackening the root the invariants
hold. -/
theorem RBInv_exit (f : Frame) (rest2 : List Frame) (t : RBTree) (n : Nat)
    (hf : f.pcolor = Color.black)
    (hsib : NoRedRed f.sib) (hsibbh : IsBH f.sib n)
    (ht : NoRedRed t) (htbh : IsBH t n)
    (hrest : ValidCtx rest2 (n + 1)) :
    RBInv (blackenRoot (plug t (f :: rest2))) := by
  have hvc : ValidCtx (f :: rest2) n := by
    refine ⟨⟨hsib, hsibbh, fun hc => absurd (hf.symm.trans hc) (by decide)⟩,
      fun hc => absurd (hf.symm.trans hc) (by decide), ?_⟩
    rw [hf]
    exact hrest
  have hp := plug_props (f :: rest2) t n hvc htbh ht (Or.inl hf)
  obtain ⟨m, hm⟩ := hp.2
  exact RBInv_blackenRoot hp.1 hm

/-- Blackening the root of a node whose two subtrees are well-formed yields
the full invariants, even when the node itself was red above a red child
(that violation sits on the recolored edge). -/
theorem RBInv_blacken_node (k : String) (c : Color) (l r : RBTree) (n : Nat)
    (hl : NoRedRed l) (hr : NoRedRed r) (hbl : IsBH l n) (hbr : IsBH r n) :
    RBInv (blackenRoot (RBTree.node k c l r)) :=
  ⟨rfl, ⟨fun hc => (nomatch hc), hl, hr⟩, n + 1, IsBH.node k Color.black l r n hbl hbr⟩

/-- Main lemma for claim C1: `insert_fixup` started at a red node `z` whose
subtree is well-formed at black count `n`, inside a context that is valid
except possibly for a red-red violation between `z` and its parent, restores
all three red-black invariants.  `N` bounds the context length for the
induction on the loop. -/
theorem insert_fixup_RBInv_aux (N : Nat) : ∀ (ctx : List Frame), ctx.length ≤ N →
    ∀ (zk : String) (zl zr : RBTree) (n : Nat),
      NoRedRed (RBTree.node zk Color.red zl zr) →
      IsBH (RBTree.node zk Color.red zl zr) n →
      ValidCtx ctx n →
      RBInv (insert_fixup zk Color.red zl zr ctx) := by
  induction N with
  | zero =>
    intro ctx hlen zk zl zr n hznr hzbh hvc
    have hctx : ctx = [] := List.length_eq_zero.mp (Nat.le_zero.mp hlen)
    subst hctx
    exact RBInv_blackenRoot hznr hzbh
  | succ N ih =>
    intro ctx hlen zk zl zr n hznr hzbh hvc
    -- facts about z
    have hzparts : (Color.red = Color.red → isRedT zl = false ∧ isRedT zr = false) ∧
        NoRedRed zl ∧ NoRedRed zr := hznr
    have hzl_red : isRedT zl = false := (hzparts.1 rfl).1
    have hzr_red : isRedT zr = false := (hzparts.1 rfl).2
    have hzlnr : NoRedRed zl := hzparts.2.1
    have hzrnr : NoRedRed zr := hzparts.2.2
    obtain ⟨hzlbh, hzrbh⟩ := IsBH_red_node.mp hzbh
    cases ctx with
    | nil => exact RBInv_blackenRoot hznr hzbh
    | cons p rest =>
      obtain ⟨pd, pk, pc, psib⟩ := p
      simp only [ValidCtx, sibOK] at hvc
      obtain ⟨⟨hpsnr, hpsbh, hpsred⟩, hpnext, hrest⟩ := hvc
      cases rest with
      | nil =>
        -- ctx = [p]: either the guard fails or the break on line 133 fires;
        -- both fall through to the root blackening of lines 162-163.
        cases pc with
        | black =>
          show RBInv (blackenRoot (plug (RBTree.node zk Color.red zl zr)
            [Frame.mk pd pk Color.black psib]))
          exact RBInv_exit (Frame.mk pd pk Color.black psib) [] _ n rfl
            hpsnr hpsbh hznr hzbh trivial
        | red =>
          show RBInv (blackenRoot (plug (RBTree.node zk Color.red zl zr)
            [Frame.mk pd pk Color.red psib]))
          cases pd with
          | left => exact RBInv_blacken_node pk Color.red _ _ n hznr hpsnr hzbh hpsbh
          | right => exact RBInv_blacken_node pk Color.red _ _ n hpsnr hznr hpsbh hzbh
      | cons g rest2 =>
        obtain ⟨gd, gk, gc, gsib⟩ := g
        have hlen2 : rest2.length ≤ N := by
          simp only [List.length_cons] at hlen
          omega
        cases pc with
        | black =>
          -- while-guard fails: parent is black
          show RBInv (blackenRoot (plug (RBTree.node zk Color.red zl zr)
            (Frame.mk pd pk Color.black psib :: Frame.mk gd gk gc gsib :: rest2)))
          have hvc' : ValidCtx (Frame.mk pd pk Color.black psib ::
              Frame.mk gd gk gc gsib :: rest2) n :=
            ⟨⟨hpsnr, hpsbh, hpsred⟩, hpnext, hrest⟩
          have hp := plug_props _ _ n hvc' hzbh hznr (Or.inl rfl)
          obtain ⟨m, hm⟩ := hp.2
          exact RBInv_blackenRoot hp.1 hm
        | red =>
          have hpsib_red : isRedT psib = false := hpsred rfl
          have hgc : gc = Color.black := hpnext rfl
          subst hgc
          simp only [ValidCtx, sibOK] at hrest
          obtain ⟨⟨hgsnr, hgsbh, -⟩, -, hrest2⟩ := hrest
          have hgsbh' : IsBH gsib n := by simpa [bAdd] using hgsbh
          have hrest2' : ValidCtx rest2 (n + 1) := by simpa [bAdd] using hrest2
          cases gd with
          | left =>
            -- parent is the grandparent's left child (lines 134-147)
            cases hy : isRedT gsib with
            | true =>
              -- red uncle: recolor and loop from the grandparent (lines 136-140)
              have hun : insert_fixup zk Color.red zl zr
                  (Frame.mk pd pk Color.red psib ::
                    Frame.mk Dir.left gk Color.black gsib :: rest2) =
                  insert_fixup gk Color.red
                    (blackenRoot (mkP (Frame.mk pd pk Color.red psib)
                      (RBTree.node zk Color.red zl zr)))
                    (blackenRoot gsib) rest2 := by
                simp [insert_fixup, hy]
              rw [hun]
              apply ih rest2 hlen2 gk _ _ (n + 1) _ _ hrest2'
              · -- NoRedRed of the recolored grandparent node
                refine ⟨fun _ => ⟨isRedT_blackenRoot _, isRedT_blackenRoot _⟩, ?_,
                  NoRedRed_blackenRoot hgsnr⟩
                cases pd with
                | left => exact ⟨fun hc => (nomatch hc), hznr, hpsnr⟩
                | right => exact ⟨fun hc => (nomatch hc), hpsnr, hznr⟩
              · -- IsBH of the recolored grandparent node
                have h1 : IsBH (blackenRoot (mkP (Frame.mk pd pk Color.red psib)
                    (RBTree.node zk Color.red zl zr))) (n + 1) := by
                  apply IsBH_blackenRoot_red
                  · cases pd with
                    | left => rfl
                    | right => rfl
                  · have := @IsBH_mkP (Frame.mk pd pk Color.red psib) (RBTree.node zk Color.red zl zr) n hpsbh hzbh
                    simpa [bAdd] using this
                have h2 : IsBH (blackenRoot gsib) (n + 1) := IsBH_blackenRoot_red hy hgsbh'
                have := IsBH.node gk Color.red _ _ (n + 1) h1 h2
                simpa [bAdd] using this
            | false =>
              cases pd with
              | right =>
                -- z is a right child: inner left_rotate then right_rotate (142-147)
                have hun : insert_fixup zk Color.red zl zr
                    (Frame.mk Dir.right pk Color.red psib ::
                      Frame.mk Dir.left gk Color.black gsib :: rest2) =
                    blackenRoot (plug (RBTree.node pk Color.red psib zl)
                      (Frame.mk Dir.left zk Color.black
                        (RBTree.node gk Color.red zr gsib) :: rest2)) := by
                  simp [insert_fixup, hy]
                rw [hun]
                apply RBInv_exit _ _ _ n rfl ?_ ?_ ?_ ?_ hrest2'
                · exact ⟨fun _ => ⟨hzr_red, hy⟩, hzrnr, hgsnr⟩
                · have := IsBH.node gk Color.red _ _ n hzrbh hgsbh'
                  simpa [bAdd] using this
                · exact ⟨fun _ => ⟨hpsib_red, hzl_red⟩, hpsnr, hzlnr⟩
                · have := IsBH.node pk Color.red _ _ n hpsbh hzlbh
                  simpa [bAdd] using this
              | left =>
                -- z already aligned (lines 145-147)
                have hun : insert_fixup zk Color.red zl zr
                    (Frame.mk Dir.left pk Color.red psib ::
                      Frame.mk Dir.left gk Color.black gsib :: rest2) =
                    blackenRoot (plug (RBTree.node zk Color.red zl zr)
                      (Frame.mk Dir.left pk Color.black
                        (RBTree.node gk Color.red psib gsib) :: rest2)) := by
                  simp [insert_fixup, hy]
                rw [hun]
                apply RBInv_exit _ _ _ n rfl ?_ ?_ hznr hzbh hrest2'
                · exact ⟨fun _ => ⟨hpsib_red, hy⟩, hpsnr, hgsnr⟩
                · have := IsBH.node gk Color.red _ _ n hpsbh hgsbh'
                  simpa [bAdd] using this
          | right =>
            -- mirror image: parent is the grandparent's right child (lines 148-161)
            cases hy : isRedT gsib with
            | true =>
              have hun : insert_fixup zk Color.red zl zr
                  (Frame.mk pd pk Color.red psib ::
                    Frame.mk Dir.right gk Color.black gsib :: rest2) =
                  insert_fixup gk Color.red
                    (blackenRoot gsib)
                    (blackenRoot (mkP (Frame.mk pd pk Color.red psib)
                      (RBTree.node zk Color.red zl zr))) rest2 := by
                simp [insert_fixup, hy]
              rw [hun]
              apply ih rest2 hlen2 gk _ _ (n + 1) _ _ hrest2'
              · refine ⟨fun _ => ⟨isRedT_blackenRoot _, isRedT_blackenRoot _⟩,
                  NoRedRed_blackenRoot hgsnr, ?_⟩
                cases pd with
                | left => exact ⟨fun hc => (nomatch hc), hznr, hpsnr⟩
                | right => exact ⟨fun hc => (nomatch hc), hpsnr, hznr⟩
              · have h1 : IsBH (blackenRoot (mkP (Frame.mk pd pk Color.red psib)
                    (RBTree.node zk Color.red zl zr))) (n + 1) := by
                  apply IsBH_blackenRoot_red
                  · cases pd with
                    | left => rfl
                    | right => rfl
                  · have := @IsBH_mkP (Frame.mk pd pk Color.red psib) (RBTree.node zk Color.red zl zr) n hpsbh hzbh
                    simpa [bAdd] using this
                have h2 : IsBH (blackenRoot gsib) (n + 1) := IsBH_blackenRoot_red hy hgsbh'
                have := IsBH.node gk Color.red _ _ (n + 1) h2 h1
                simpa [bAdd] using this
            | false =>
              cases pd with
              | left =>
                -- z is a left child: inner right_rotate then left_rotate (156-161)
                have hun : insert_fixup zk Color.red zl zr
                    (Frame.mk Dir.left pk Color.red psib ::
                      Frame.mk Dir.right gk Color.black gsib :: rest2) =
                    blackenRoot (plug (RBTree.node pk Color.red zr psib)
                      (Frame.mk Dir.right zk Color.black
                        (RBTree.node gk Color.red gsib zl) :: rest2)) := by
                  simp [insert_fixup, hy]
                rw [hun]
                apply RBInv_exit _ _ _ n rfl ?_ ?_ ?_ ?_ hrest2'
                · exact ⟨fun _ => ⟨hy, hzl_red⟩, hgsnr, hzlnr⟩
                · have := IsBH.node gk Color.red _ _ n hgsbh' hzlbh
                  simpa [bAdd] using this
                · exact ⟨fun _ => ⟨hzr_red, hpsib_red⟩, hzrnr, hpsnr⟩
                · have := IsBH.node pk Color.red _ _ n hzrbh hpsbh
                  simpa [bAdd] using this
              | right =>
                have hun : insert_fixup zk Color.red zl zr
                    (Frame.mk Dir.right pk Color.red psib ::
                      Frame.mk Dir.right gk Color.black gsib :: rest2) =
                    blackenRoot (plug (RBTree.node zk Color.red zl zr)
                      (Frame.mk Dir.right pk Color.black
                        (RBTree.node gk Color.red gsib psib) :: rest2)) := by
                  simp [insert_fixup, hy]
                rw [hun]
                apply RBInv_exit _ _ _ n rfl ?_ ?_ hznr hzbh hrest2'
                · exact ⟨fun _ => ⟨hy, hpsib_red⟩, hgsnr, hpsnr⟩
                · have := IsBH.node gk Color.red _ _ n hgsbh' hpsbh
                  simpa [bAdd] using this

/-- The descent of `insert` through a tree with no red-red violation and
consistent black counts produces a valid context for the new leaf position
(whose black count is 0). -/
theorem descend_valid (t : RBTree) (key : String) : ∀ (ctx : List Frame) (m : Nat),
    NoRedRed t → IsBH t m → ValidCtx ctx m →
    (isRedT t = true → headBlack ctx) →
    ValidCtx (descend t key ctx) 0 := by
  induction t with
  | nil =>
    intro ctx m hnr hbh hvc hred
    cases hbh
    exact hvc
  | node k c l r ihl ihr =>
    intro ctx m hnr hbh hvc hred
    have hparts : (c = Color.red → isRedT l = false ∧ isRedT r = false) ∧
        NoRedRed l ∧ NoRedRed r := hnr
    cases hbh with
    | node _ _ _ _ m' hl hr =>
      by_cases hlt : pyLtb key k = true
      · have hd : descend (RBTree.node k c l r) key ctx =
            descend l key (Frame.mk Dir.left k c r :: ctx) := by
          simp [descend, hlt]
        rw [hd]
        apply ihl (Frame.mk Dir.left k c r :: ctx) m' hparts.2.1 hl
        · refine ⟨⟨hparts.2.2, hr, fun hc => (hparts.1 hc).2⟩, ?_, hvc⟩
          intro hc
          have hc' : c = Color.red := hc
          exact hred (by rw [hc']; rfl)
        · intro hlred
          show c = Color.black
          cases c with
          | black => rfl
          | red =>
            rw [(hparts.1 rfl).1] at hlred
            exact (nomatch hlred)
      · have hd : descend (RBTree.node k c l r) key ctx =
            descend r key (Frame.mk Dir.right k c l :: ctx) := by
          simp [descend, hlt]
        rw [hd]
        apply ihr (Frame.mk Dir.right k c l :: ctx) m' hparts.2.2 hr
        · refine ⟨⟨hparts.2.1, hl, fun hc => (hparts.1 hc).1⟩, ?_, hvc⟩
          intro hc
          have hc' : c = Color.red := hc
          exact hred (by rw [hc']; rfl)
        · intro hrred
          show c = Color.black
          cases c with
          | black => rfl
          | red =>
            rw [(hparts.1 rfl).2] at hrred
            exact (nomatch hrred)

/-- `RedBlackTree.insert` preserves the red-black invariants. -/
theorem insert_RBInv {t : RBTree} (key : String) (h : RBInv t) :
    RBInv (RedBlackTree.insert t key) := by
  obtain ⟨hroot, hnr, m, hbh⟩ := h
  show RBInv (insert_fixup key Color.red RBTree.nil RBTree.nil (descend t key []))
  apply insert_fixup_RBInv_aux (descend t key []).length _ (le_refl _) key
    RBTree.nil RBTree.nil 0
  · exact ⟨fun _ => ⟨rfl, rfl⟩, trivial, trivial⟩
  · simpa [bAdd] using IsBH.node key Color.red RBTree.nil RBTree.nil 0 IsBH.nil IsBH.nil
  · exact descend_valid t key [] m hnr hbh trivial (fun _ => trivial)

theorem foldl_insert_RBInv (keys : List String) :
    ∀ t : RBTree, RBInv t → RBInv (keys.foldl RedBlackTree.insert t) := by
  induction keys with
  | nil => intro t h; exact h
  | cons k keys ih =>
    intro t h
    exact ih (RedBlackTree.insert t k) (insert_RBInv k h)

/-- Claim C1: after every sequence of string-key insertions into an initially
empty `RedBlackTree` the tree satisfies the red-black invariants — the root
is black, no red node has a red child, and every downward path from any node
to an absent-child position passes through the same number of black nodes
(being an `IsBH` derivation, the black-count consistency holds at every
subtree, hence at every node).  Every prefix of a sequence is itself a
sequence, so the invariants hold after each completed insert. -/
theorem build_invariants (keys : List String) :
    isRedT (build keys) = false ∧ NoRedRed (build keys) ∧ ∃ n, IsBH (build keys) n := by
  have h : RBInv (build keys) :=
    foldl_insert_RBInv keys RBTree.nil ⟨rfl, trivial, 0, IsBH.nil⟩
  exact h

/-!
## Ordering invariant and duplicate-right policy (claim C5)
-/

/-- In-order key sequence of the tree. -/
def inorder : RBTree → List String
  | RBTree.nil => []
  | RBTree.node k _ l r => inorder l ++ k :: inorder r

/-- At every node, every key in the left subtree is `≤` the node's key and
every key in the right subtree is `≥` it. -/
def Ordered : RBTree → Prop
  | RBTree.nil => True
  | RBTree.node k _ l r =>
      (∀ x ∈ inorder l, x ≤ k) ∧ (∀ x ∈ inorder r, k ≤ x) ∧ Ordered l ∧ Ordered r

theorem ordered_iff_sorted (t : RBTree) :
    Ordered t ↔ List.Sorted (· ≤ ·) (inorder t) := by
  induction t with
  | nil =>
    constructor
    · intro _; exact List.sorted_nil
    · intro _; exact trivial
  | node k c l r ihl ihr =>
    simp only [Ordered, inorder]
    constructor
    · rintro ⟨h1, h2, hl, hr⟩
      have hsl : List.Sorted (· ≤ ·) (inorder l) := ihl.mp hl
      have hskr : List.Sorted (· ≤ ·) (k :: inorder r) :=
        List.sorted_cons.mpr ⟨h2, ihr.mp hr⟩
      apply List.pairwise_append.mpr
      refine ⟨hsl, hskr, ?_⟩
      intro x hx y hy
      rcases List.mem_cons.mp hy with hy' | hy'
      · rw [hy']; exact h1 x hx
      · exact le_trans (h1 x hx) (List.rel_of_sorted_cons hskr y hy')
    · intro hs
      obtain ⟨hsl, hskr, hcross⟩ := List.pairwise_append.mp hs
      refine ⟨fun x hx => hcross x hx k (List.mem_cons_self k _),
        List.rel_of_sorted_cons hskr, ihl.mpr hsl,
        ihr.mpr (List.sorted_cons.mp hskr).2⟩

theorem inorder_blackenRoot (t : RBTree) : inorder (blackenRoot t) = inorder t := by
  cases t with
  | nil => rfl
  | node k c l r => rfl

theorem plug_cons (t : RBTree) (f : Frame) (ctx : List Frame) :
    plug t (f :: ctx) = plug (mkP f t) ctx := rfl

theorem inorder_plug_congr : ∀ (ctx : List Frame) (t t' : RBTree),
    inorder t = inorder t' → inorder (plug t ctx) = inorder (plug t' ctx) := by
  intro ctx
  induction ctx with
  | nil => intro t t' h; exact h
  | cons f rest ih =>
    intro t t' h
    apply ih
    obtain ⟨d, k, c, s⟩ := f
    cases d with
    | left =>
      show inorder (RBTree.node k c t s) = inorder (RBTree.node k c t' s)
      simp [inorder, h]
    | right =>
      show inorder (RBTree.node k c s t) = inorder (RBTree.node k c s t')
      simp [inorder, h]

/-- `insert_fixup` recolors and rotates but never changes the in-order key
sequence of the whole tree. -/
theorem inorder_insert_fixup_aux (N : Nat) : ∀ (ctx : List Frame), ctx.length ≤ N →
    ∀ (zk : String) (zc : Color) (zl zr : RBTree),
      inorder (insert_fixup zk zc zl zr ctx) =
        inorder (plug (RBTree.node zk zc zl zr) ctx) := by
  induction N with
  | zero =>
    intro ctx hlen zk zc zl zr
    have hctx : ctx = [] := List.length_eq_zero.mp (Nat.le_zero.mp hlen)
    subst hctx
    exact inorder_blackenRoot _
  | succ N ih =>
    intro ctx hlen zk zc zl zr
    cases ctx with
    | nil => exact inorder_blackenRoot _
    | cons p rest =>
      obtain ⟨pd, pk, pc, psib⟩ := p
      cases rest with
      | nil =>
        cases pc with
        | black => exact inorder_blackenRoot _
        | red => exact inorder_blackenRoot _
      | cons g rest2 =>
        obtain ⟨gd, gk, gc, gsib⟩ := g
        have hlen2 : rest2.length ≤ N := by
          simp only [List.length_cons] at hlen
          omega
        cases pc with
        | black => exact inorder_blackenRoot _
        | red =>
          cases gd with
          | left =>
            cases hy : isRedT gsib with
            | true =>
              have hun : insert_fixup zk zc zl zr
                  (Frame.mk pd pk Color.red psib ::
                    Frame.mk Dir.left gk gc gsib :: rest2) =
                  insert_fixup gk Color.red
                    (blackenRoot (mkP (Frame.mk pd pk Color.red psib)
                      (RBTree.node zk zc zl zr)))
                    (blackenRoot gsib) rest2 := by
                simp [insert_fixup, hy]
              rw [hun, ih rest2 hlen2]
              apply inorder_plug_congr
              cases pd with
              | left =>
                simp [inorder, mkP, inorder_blackenRoot]
              | right =>
                simp [inorder, mkP, inorder_blackenRoot]
            | false =>
              cases pd with
              | right =>
                have hun : insert_fixup zk zc zl zr
                    (Frame.mk Dir.right pk Color.red psib ::
                      Frame.mk Dir.left gk gc gsib :: rest2) =
                    blackenRoot (plug (RBTree.node pk Color.red psib zl)
                      (Frame.mk Dir.left zk Color.black
                        (RBTree.node gk Color.red zr gsib) :: rest2)) := by
                  simp [insert_fixup, hy]
                rw [hun, inorder_blackenRoot]
                simp only [plug_cons]
                apply inorder_plug_congr
                simp [inorder, mkP]
              | left =>
                have hun : insert_fixup zk zc zl zr
                    (Frame.mk Dir.left pk Color.red psib ::
                      Frame.mk Dir.left gk gc gsib :: rest2) =
                    blackenRoot (plug (RBTree.node zk zc zl zr)
                      (Frame.mk Dir.left pk Color.black
                        (RBTree.node gk Color.red psib gsib) :: rest2)) := by
                  simp [insert_fixup, hy]
                rw [hun, inorder_blackenRoot]
                simp only [plug_cons]
                apply inorder_plug_congr
                simp [inorder, mkP]
          | right =>
            cases hy : isRedT gsib with
            | true =>
              have hun : insert_fixup zk zc zl zr
                  (Frame.mk pd pk Color.red psib ::
                    Frame.mk Dir.right gk gc gsib :: rest2) =
                  insert_fixup gk Color.red
                    (blackenRoot gsib)
                    (blackenRoot (mkP (Frame.mk pd pk Color.red psib)
                      (RBTree.node zk zc zl zr))) rest2 := by
                simp [insert_fixup, hy]
              rw [hun, ih rest2 hlen2]
              apply inorder_plug_congr
              cases pd with
              | left =>
                simp [inorder, mkP, inorder_blackenRoot]
              | right =>
                simp [inorder, mkP, inorder_blackenRoot]
            | false =>
              cases pd with
              | left =>
                have hun : insert_fixup zk zc zl zr
                    (Frame.mk Dir.left pk Color.red psib ::
                      Frame.mk Dir.right gk gc gsib :: rest2) =
                    blackenRoot (plug (RBTree.node pk Color.red zr psib)
                      (Frame.mk Dir.right zk Color.black
                        (RBTree.node gk Color.red gsib zl) :: rest2)) := by
                  simp [insert_fixup, hy]
                rw [hun, inorder_blackenRoot]
                simp only [plug_cons]
                apply inorder_plug_congr
                simp [inorder, mkP]
              | right =>
                have hun : insert_fixup zk zc zl zr
                    (Frame.mk Dir.right pk Color.red psib ::
                      Frame.mk Dir.right gk gc gsib :: rest2) =
                    blackenRoot (plug (RBTree.node zk zc zl zr)
                      (Frame.mk Dir.right pk Color.black
                        (RBTree.node gk Color.red gsib psib) :: rest2)) := by
                  simp [insert_fixup, hy]
                rw [hun, inorder_blackenRoot]
                simp only [plug_cons]
                apply inorder_plug_congr
                simp [inorder, mkP]

/-- The pure binary-search-tree insertion that the descent of
`RedBlackTree.insert` performs before any fixup: descend left on
`key < x.key`, right otherwise (so keys that are not strictly smaller —
equal keys included — go right), and attach the new red leaf at the `None`
position reached. -/
def bstInsert : RBTree → String → RBTree
  | RBTree.nil, key => RBTree.node key Color.red RBTree.nil RBTree.nil
  | RBTree.node k c l r, key =>
    if pyLtb key k then RBTree.node k c (bstInsert l key) r
    else RBTree.node k c l (bstInsert r key)

/-- Attaching the new leaf at the descent's final position is `bstInsert`. -/
theorem descend_plug (t : RBTree) (key : String) : ∀ ctx : List Frame,
    plug (RBTree.node key Color.red RBTree.nil RBTree.nil) (descend t key ctx) =
    plug (bstInsert t key) ctx := by
  induction t with
  | nil => intro ctx; rfl
  | node k c l r ihl ihr =>
    intro ctx
    by_cases hlt : pyLtb key k = true
    · have hd : descend (RBTree.node k c l r) key ctx =
          descend l key (Frame.mk Dir.left k c r :: ctx) := by
        simp [descend, hlt]
      have hb : bstInsert (RBTree.node k c l r) key =
          RBTree.node k c (bstInsert l key) r := by
        simp [bstInsert, hlt]
      rw [hd, ihl, hb, plug_cons]
      rfl
    · have hd : descend (RBTree.node k c l r) key ctx =
          descend r key (Frame.mk Dir.right k c l :: ctx) := by
        simp [descend, hlt]
      have hb : bstInsert (RBTree.node k c l r) key =
          RBTree.node k c l (bstInsert r key) := by
        simp [bstInsert, hlt]
      rw [hd, ihr, hb, plug_cons]
      rfl

theorem mem_inorder_bstInsert {key x : String} : ∀ {t : RBTree},
    x ∈ inorder (bstInsert t key) → x = key ∨ x ∈ inorder t := by
  intro t
  induction t with
  | nil =>
    intro h
    simp [bstInsert, inorder] at h
    exact Or.inl h
  | node k c l r ihl ihr =>
    intro h
    by_cases hlt : pyLtb key k = true
    · rw [show bstInsert (RBTree.node k c l r) key =
          RBTree.node k c (bstInsert l key) r from by simp [bstInsert, hlt]] at h
      simp only [inorder, List.mem_append, List.mem_cons] at h
      rcases h with h | h | h
      · rcases ihl h with h' | h'
        · exact Or.inl h'
        · exact Or.inr (by simp [inorder, h'])
      · exact Or.inr (by simp [inorder, h])
      · exact Or.inr (by simp [inorder, h])
    · rw [show bstInsert (RBTree.node k c l r) key =
          RBTree.node k c l (bstInsert r key) from by simp [bstInsert, hlt]] at h
      simp only [inorder, List.mem_append, List.mem_cons] at h
      rcases h with h | h | h
      · exact Or.inr (by simp [inorder, h])
      · exact Or.inr (by simp [inorder, h])
      · rcases ihr h with h' | h'
        · exact Or.inl h'
        · exact Or.inr (by simp [inorder, h'])

theorem Ordered_bstInsert (key : String) : ∀ {t : RBTree}, Ordered t →
    Ordered (bstInsert t key) := by
  intro t
  induction t with
  | nil =>
    intro _
    exact ⟨by simp [inorder], by simp [inorder], trivial, trivial⟩
  | node k c l r ihl ihr =>
    intro h
    obtain ⟨h1, h2, hl, hr⟩ : (∀ x ∈ inorder l, x ≤ k) ∧ (∀ x ∈ inorder r, k ≤ x) ∧
        Ordered l ∧ Ordered r := h
    by_cases hlt : pyLtb key k = true
    · rw [show bstInsert (RBTree.node k c l r) key =
          RBTree.node k c (bstInsert l key) r from by simp [bstInsert, hlt]]
      refine ⟨?_, h2, ihl hl, hr⟩
      intro x hx
      rcases mem_inorder_bstInsert hx with h' | h'
      · rw [h']
        exact le_of_lt ((pyLtb_iff_lt key k).mp hlt)
      · exact h1 x h'
    · rw [show bstInsert (RBTree.node k c l r) key =
          RBTree.node k c l (bstInsert r key) from by simp [bstInsert, hlt]]
      refine ⟨h1, ?_, hl, ihr hr⟩
      intro x hx
      rcases mem_inorder_bstInsert hx with h' | h'
      · rw [h']
        exact (pyLtb_false_iff key k).mp (Bool.not_eq_true _ ▸ hlt)
      · exact h2 x h'

theorem Ordered_insert {t : RBTree} (key : String) (h : Ordered t) :
    Ordered (RedBlackTree.insert t key) := by
  rw [ordered_iff_sorted]
  have h1 : inorder (RedBlackTree.insert t key) = inorder (bstInsert t key) := by
    show inorder (insert_fixup key Color.red RBTree.nil RBTree.nil (descend t key [])) = _
    rw [inorder_insert_fixup_aux (descend t key []).length (descend t key [])
      (le_refl _) key Color.red RBTree.nil RBTree.nil]
    rw [descend_plug t key []]
    rfl
  rw [h1, ← ordered_iff_sorted]
  exact Ordered_bstInsert key h

theorem foldl_insert_Ordered (keys : List String) :
    ∀ t : RBTree, Ordered t → Ordered (keys.foldl RedBlackTree.insert t) := by
  induction keys with
  | nil => intro t h; exact h
  | cons k keys ih =>
    intro t h
    exact ih (RedBlackTree.insert t k) (Ordered_insert k h)

/-- Claim C5: after every sequence of string-key insertions into an initially
empty `RedBlackTree`, every node's left subtree holds only keys `≤` its key
and its right subtree only keys `≥` its key; and during descent a key that is
not strictly less than the key at the current node moves to the right child,
so equal keys accumulate in the right subtree of their first-inserted
peer. -/
theorem build_Ordered_dupRight (keys : List String) :
    Ordered (build keys) ∧
    ∀ (key k : String) (c : Color) (l r : RBTree) (ctx : List Frame),
      ¬ key < k →
      descend (RBTree.node k c l r) key ctx =
        descend r key (Frame.mk Dir.right k c l :: ctx) := by
  constructor
  · exact foldl_insert_Ordered keys RBTree.nil trivial
  · intro key k c l r ctx hnlt
    have hpy : pyLtb key k = false := by
      rw [pyLtb_false_iff]
      exact le_of_not_lt hnlt
    simp [descend, hpy]

/-- Witness for `build_Ordered_dupRight`: a concrete sequence with a
duplicate key, and a concrete equal-key descent step going right. -/
theorem build_Ordered_dupRight_witness :
    Ordered (build ["b", "a", "b"]) ∧
    descend (RBTree.node "a" Color.black RBTree.nil RBTree.nil) "a" [] =
      descend RBTree.nil "a" [Frame.mk Dir.right "a" Color.black RBTree.nil] :=
  ⟨(build_Ordered_dupRight ["b", "a", "b"]).1,
    (build_Ordered_dupRight []).2 "a" "a" Color.black RBTree.nil RBTree.nil []
      (lt_irrefl "a")⟩

/-!
## The Huffman builder (claims C2, C3, C6, C7, C8)

`build_huffman_tree` (lines 49-66) keeps a list of candidate trees, sorts it
by frequency with Python's stable `list.sort(key=lambda x: x.freq)` on every
iteration, merges the two front trees and appends the merged tree at the
back.  A stable sort's output is uniquely determined by the input order and
the key function, so the sort is modelled by the stable insertion sort
`sortBy` below; the loop is modelled with explicit fuel (the loop runs
exactly `len(heap) - 1` times, so any fuel `≥ len(heap) - 1` gives the
loop's result).

A Python `dict` iterates in insertion order and assignment overwrites in
place, so a frequency `dict` is an association list with `Nodup` keys
(`dictInsert` below models assignment).
-/

/-- `HuffmanNode` (lines 42-47); `nilH` is a `None` child reference.  A leaf
carries its symbol in `char`; merged nodes carry `char = ""`. -/
inductive HTree where
  | nilH
  | nodeH (char : String) (freq : Nat) (l r : HTree)
deriving DecidableEq, Repr

/-- `x.freq` (heap elements are always real nodes). -/
def hfreq : HTree → Nat
  | HTree.nilH => 0
  | HTree.nodeH _ f _ _ => f

/-- Stable insertion of `x` into a list sorted by `key`: `x` goes before the
first strictly larger element and after equal ones that were inserted
before. -/
def insBy {α : Type} (key : α → Nat) (x : α) : List α → List α
  | [] => [x]
  | y :: ys => if key x ≤ key y then x :: y :: ys else y :: insBy key x ys

/-- Stable insertion sort by a numeric key: the unique stable sort, hence the
model of Python's `list.sort(key=...)`. -/
def sortBy {α : Type} (key : α → Nat) : List α → List α
  | [] => []
  | x :: xs => insBy key x (sortBy key xs)

/-- The `while len(heap) > 1` loop of lines 58-65: sort by frequency, pop the
two lowest, merge (symbol `""`, frequency the sum), append the merged node at
the back.  `fuel` bounds the number of iterations; the loop body runs at most
`len(heap) - 1` times, so any larger fuel computes the loop's result. -/
def hloop (fuel : Nat) (heap : List HTree) : List HTree :=
  match fuel with
  | 0 => heap
  | fuel + 1 =>
    if heap.length > 1 then
      match sortBy hfreq heap with
      | a :: b :: rest => hloop fuel (rest ++ [HTree.nodeH "" (hfreq a + hfreq b) a b])
      | _ => heap
    else heap

/-- `build_huffman_tree` (lines 49-66). -/
def build_huffman_tree (freq : List (String × Nat)) : Except String HTree :=
  match freq with
  | [] => Except.error "Empty frequency map"
  | [(k, v)] => Except.ok (HTree.nodeH k v HTree.nilH HTree.nilH)
  | _ =>
    match hloop freq.length
        (freq.map fun kv => HTree.nodeH kv.1 kv.2 HTree.nilH HTree.nilH) with
    | t :: _ => Except.ok t
    | [] => Except.error "IndexError"

/-- Python dict assignment `codes[node.char] = ...`: overwrite in place when
the key is present, append otherwise. -/
def dictInsert (codes : List (String × String)) (k v : String) :
    List (String × String) :=
  if k ∈ codes.map Prod.fst then
    codes.map fun p => if p.1 = k then (k, v) else p
  else codes ++ [(k, v)]

/-- `build_huffman_codes` (lines 68-78).  The mutable `codes` dict is
threaded through; `prefix if prefix else "0"` keeps a non-empty code for a
root leaf.  The `nilH` case is unreachable from the entry point (the guards
on lines 74 and 76 never pass `None`); it returns `codes` untouched. -/
def build_huffman_codes (node : HTree) (pfx : String)
    (codes : List (String × String)) : List (String × String) :=
  match node with
  | HTree.nilH => codes
  | HTree.nodeH c _ l r =>
    if l = HTree.nilH ∧ r = HTree.nilH then
      dictInsert codes c (if pfx ≠ "" then pfx else "0")
    else
      let codes1 := if l ≠ HTree.nilH then build_huffman_codes l (pfx ++ "0") codes
        else codes
      if r ≠ HTree.nilH then build_huffman_codes r (pfx ++ "1") codes1 else codes1

/-!
### Basic facts about `sortBy` and `hloop`
-/

theorem insBy_perm {α : Type} (key : α → Nat) (x : α) :
    ∀ l : List α, (insBy key x l).Perm (x :: l) := by
  intro l
  induction l with
  | nil => exact List.Perm.refl _
  | cons y ys ih =>
    by_cases h : key x ≤ key y
    · simp [insBy, h]
    · simp only [insBy, h, if_false]
      exact ((ih.cons y).trans (List.Perm.swap x y ys))

theorem sortBy_perm {α : Type} (key : α → Nat) :
    ∀ l : List α, (sortBy key l).Perm l := by
  intro l
  induction l with
  | nil => exact List.Perm.refl _
  | cons x xs ih =>
    exact (insBy_perm key x (sortBy key xs)).trans (ih.cons x)

theorem insBy_sorted {α : Type} (key : α → Nat) (x : α) :
    ∀ l : List α, List.Sorted (fun a b => key a ≤ key b) l →
      List.Sorted (fun a b => key a ≤ key b) (insBy key x l) := by
  intro l
  induction l with
  | nil => intro _; simp [insBy]
  | cons y ys ih =>
    intro hs
    rw [List.sorted_cons] at hs
    by_cases h : key x ≤ key y
    · simp only [insBy, h, if_true]
      rw [List.sorted_cons]
      refine ⟨?_, List.sorted_cons.mpr hs⟩
      intro b hb
      rcases List.mem_cons.mp hb with hb' | hb'
      · rw [hb']; exact h
      · exact le_trans h (hs.1 b hb')
    · simp only [insBy, h, if_false]
      rw [List.sorted_cons]
      refine ⟨?_, ih hs.2⟩
      intro b hb
      have hmem := (insBy_perm key x ys).mem_iff.mp hb
      rcases List.mem_cons.mp hmem with hb' | hb'
      · rw [hb']; exact le_of_not_le h
      · exact hs.1 b hb'

theorem sortBy_sorted {α : Type} (key : α → Nat) :
    ∀ l : List α, List.Sorted (fun a b => key a ≤ key b) (sortBy key l) := by
  intro l
  induction l with
  | nil => simp [sortBy]
  | cons x xs ih => exact insBy_sorted key x (sortBy key xs) ih

theorem length_sortBy {α : Type} (key : α → Nat) (l : List α) :
    (sortBy key l).length = l.length :=
  (sortBy_perm key l).length_eq

theorem hloop_ne_nil : ∀ (fuel : Nat) (heap : List HTree), heap ≠ [] →
    hloop fuel heap ≠ [] := by
  intro fuel
  induction fuel with
  | zero => intro heap h; exact h
  | succ fuel ih =>
    intro heap h
    by_cases hl : heap.length > 1
    · rcases hs : sortBy hfreq heap with _ | ⟨a, rest1⟩
      · simp only [hloop, hl, if_true, hs]
        exact h
      · rcases rest1 with _ | ⟨b, rest⟩
        · simp only [hloop, hl, if_true, hs]
          exact h
        · simp only [hloop, hl, if_true, hs]
          exact ih _ (by simp)
    · simp only [hloop, hl, if_false]
      exact h

theorem hloop_singleton : ∀ (fuel : Nat) (heap : List HTree),
    heap.length ≤ fuel + 1 → heap ≠ [] → ∃ t, hloop fuel heap = [t] := by
  intro fuel
  induction fuel with
  | zero =>
    intro heap hlen hne
    match heap, hlen, hne with
    | [t], _, _ => exact ⟨t, rfl⟩
  | succ fuel ih =>
    intro heap hlen hne
    by_cases hl : heap.length > 1
    · have hlen2 : (sortBy hfreq heap).length = heap.length := length_sortBy hfreq heap
      rcases hs : sortBy hfreq heap with _ | ⟨a, rest1⟩
      · rw [hs] at hlen2
        simp at hlen2
        omega
      · rcases rest1 with _ | ⟨b, rest⟩
        · rw [hs] at hlen2
          simp at hlen2
          omega
        · simp only [hloop, hl, if_true, hs]
          apply ih
          · rw [hs] at hlen2
            simp only [List.length_append, List.length_cons, List.length_nil] at hlen2 ⊢
            omega
          · simp
    · have h1 : heap.length = 1 := by
        cases heap with
        | nil => exact absurd rfl hne
        | cons x xs =>
          simp only [List.length_cons, gt_iff_lt, not_lt] at hl ⊢
          omega
      match heap, h1 with
      | [t], _ =>
        exact ⟨t, by simp [hloop, hl]⟩

/-- Claim C6: `build_huffman_tree` raises exactly on an empty frequency
mapping (`ValueError` on line 51), and a single-entry mapping returns the
single leaf carrying that symbol and frequency, with no merge performed
(lines 52-54). -/
theorem build_huffman_tree_spec :
    (∀ freq : List (String × Nat),
      (∃ e, build_huffman_tree freq = Except.error e) ↔ freq = []) ∧
    (∀ (k : String) (v : Nat),
      build_huffman_tree [(k, v)] =
        Except.ok (HTree.nodeH k v HTree.nilH HTree.nilH)) := by
  constructor
  · intro freq
    constructor
    · rintro ⟨e, he⟩
      match freq with
      | [] => rfl
      | [(k, v)] => exact absurd he (by simp [build_huffman_tree])
      | (k1, v1) :: (k2, v2) :: rest =>
        exfalso
        have hne : ((k1, v1) :: (k2, v2) :: rest).map
            (fun kv : String × Nat => HTree.nodeH kv.1 kv.2 HTree.nilH HTree.nilH) ≠ [] := by
          simp
        obtain ⟨t, ht⟩ := hloop_singleton (((k1, v1) :: (k2, v2) :: rest).length) _
          (by simp) hne
        rw [show build_huffman_tree ((k1, v1) :: (k2, v2) :: rest) =
          (match hloop (((k1, v1) :: (k2, v2) :: rest).length)
              (((k1, v1) :: (k2, v2) :: rest).map
                fun kv => HTree.nodeH kv.1 kv.2 HTree.nilH HTree.nilH) with
            | t :: _ => Except.ok t
            | [] => Except.error "IndexError") from rfl, ht] at he
        exact nomatch he
    · rintro rfl
      exact ⟨"Empty frequency map", rfl⟩
  · intro k v
    rfl

/-- Witness for `build_huffman_tree_spec` at concrete inputs: a two-entry
mapping is not an error, an empty mapping is, and a one-entry mapping gives
the leaf. -/
theorem build_huffman_tree_spec_witness :
    build_huffman_tree [("a", 2)] =
      Except.ok (HTree.nodeH "a" 2 HTree.nilH HTree.nilH) ∧
    ((∃ e, build_huffman_tree ([] : List (String × Nat)) = Except.error e) ↔
      ([] : List (String × Nat)) = []) :=
  ⟨build_huffman_tree_spec.2 "a" 2, build_huffman_tree_spec.1 []⟩

/-- Claim C7: on a single-entry frequency mapping the pipeline assigns the
symbol the non-empty code `"0"` (`prefix if prefix else "0"` on line 72). -/
theorem single_symbol_code_zero (k : String) (v : Nat) :
    (build_huffman_tree [(k, v)]).map (fun t => build_huffman_codes t "" []) =
      Except.ok [(k, "0")] := rfl

/-!
### Prefix-freeness of the generated codes (claim C2)
-/

/-- The `(symbol, frequency)` pairs at the leaves, in traversal order.  A
node is a leaf exactly when both children are absent (the test on line
71). -/
def leavesH : HTree → List (String × Nat)
  | HTree.nilH => []
  | HTree.nodeH c f l r =>
    if l = HTree.nilH ∧ r = HTree.nilH then [(c, f)] else leavesH l ++ leavesH r

/-- The leaf symbols in traversal order. -/
def leafChars (t : HTree) : List String :=
  (leavesH t).map Prod.fst

/-- Trees in which every node has either two children or none — every tree
the builder ever puts in its heap is of this shape. -/
inductive FullH : HTree → Prop where
  | leaf (c : String) (f : Nat) : FullH (HTree.nodeH c f HTree.nilH HTree.nilH)
  | node (c : String) (f : Nat) (l r : HTree) :
      FullH l → FullH r → FullH (HTree.nodeH c f l r)

theorem FullH_ne_nil {t : HTree} (h : FullH t) : t ≠ HTree.nilH := by
  cases h with
  | leaf c f => exact fun hc => nomatch hc
  | node c f l r hl hr => exact fun hc => nomatch hc

/-- The code assignment of `build_huffman_codes` as a pure list: what gets
appended to the `codes` dict during the traversal. -/
def asg : HTree → String → List (String × String)
  | HTree.nilH, _ => []
  | HTree.nodeH c _ l r, pfx =>
    if l = HTree.nilH ∧ r = HTree.nilH then [(c, if pfx ≠ "" then pfx else "0")]
    else asg l (pfx ++ "0") ++ asg r (pfx ++ "1")

/-- `Pfx a b`: the character list `a` is a prefix of `b` (`a` itself
included). -/
def Pfx (a b : List Char) : Prop := ∃ s, b = a ++ s

theorem asg_node {c : String} {f : Nat} {l r : HTree} {pfx : String}
    (hl : l ≠ HTree.nilH) :
    asg (HTree.nodeH c f l r) pfx = asg l (pfx ++ "0") ++ asg r (pfx ++ "1") := by
  simp [asg, hl]

theorem leavesH_node {c : String} {f : Nat} {l r : HTree}
    (hl : l ≠ HTree.nilH) :
    leavesH (HTree.nodeH c f l r) = leavesH l ++ leavesH r := by
  simp [leavesH, hl]

theorem asg_keys : ∀ (t : HTree) (pfx : String),
    (asg t pfx).map Prod.fst = leafChars t := by
  intro t
  induction t with
  | nilH => intro pfx; rfl
  | nodeH c f l r ihl ihr =>
    intro pfx
    by_cases h : l = HTree.nilH ∧ r = HTree.nilH
    · simp [asg, leafChars, leavesH, h]
    · simp only [asg, leafChars, leavesH, h, if_false, List.map_append]
      rw [← leafChars, ← leafChars, ihl, ihr]

/-- With all-fresh, duplicate-free leaf symbols the dict updates of
`build_huffman_codes` are plain appends: the final dict is the input dict
followed by the traversal's assignment list. -/
theorem build_huffman_codes_asg : ∀ (t : HTree), FullH t →
    ∀ (pfx : String) (codes : List (String × String)),
      (∀ c ∈ leafChars t, c ∉ codes.map Prod.fst) → (leafChars t).Nodup →
      build_huffman_codes t pfx codes = codes ++ asg t pfx := by
  intro t hfull
  induction hfull with
  | leaf c f =>
    intro pfx codes hfresh _
    have hc : c ∉ codes.map Prod.fst := hfresh c (by simp [leafChars, leavesH])
    simp [build_huffman_codes, dictInsert, asg, hc]
  | node c f l r hfl hfr ihl ihr =>
    intro pfx codes hfresh hnodup
    have hlne : l ≠ HTree.nilH := FullH_ne_nil hfl
    have hrne : r ≠ HTree.nilH := FullH_ne_nil hfr
    have hcond : ¬ (l = HTree.nilH ∧ r = HTree.nilH) := fun hc => hlne hc.1
    have hchars : leafChars (HTree.nodeH c f l r) = leafChars l ++ leafChars r := by
      simp [leafChars, leavesH_node hlne]
    rw [hchars] at hfresh hnodup
    obtain ⟨hnl, hnr, hdisj⟩ := List.nodup_append.mp hnodup
    have h1 : build_huffman_codes l (pfx ++ "0") codes = codes ++ asg l (pfx ++ "0") :=
      ihl (pfx ++ "0") codes
        (fun c' hc' => hfresh c' (List.mem_append.mpr (Or.inl hc'))) hnl
    have h2 : build_huffman_codes r (pfx ++ "1") (codes ++ asg l (pfx ++ "0")) =
        (codes ++ asg l (pfx ++ "0")) ++ asg r (pfx ++ "1") := by
      apply ihr (pfx ++ "1") _ _ hnr
      intro c' hc'
      rw [List.map_append, asg_keys]
      rw [List.mem_append]
      rintro (h | h)
      · exact hfresh c' (List.mem_append.mpr (Or.inr hc')) h
      · exact hdisj h hc'
    calc build_huffman_codes (HTree.nodeH c f l r) pfx codes
        = build_huffman_codes r (pfx ++ "1") (build_huffman_codes l (pfx ++ "0") codes) := by
          simp only [build_huffman_codes, hlne, hrne, ne_eq, not_false_eq_true,
            if_true, false_and, if_false]
      _ = (codes ++ asg l (pfx ++ "0")) ++ asg r (pfx ++ "1") := by rw [h1, h2]
      _ = codes ++ asg (HTree.nodeH c f l r) pfx := by
          rw [asg_node hlne, List.append_assoc]

theorem append_zero_ne_empty (pfx : String) : pfx ++ "0" ≠ "" := by
  intro h
  have := congrArg String.data h
  simp [String.data_append] at this

theorem append_one_ne_empty (pfx : String) : pfx ++ "1" ≠ "" := by
  intro h
  have := congrArg String.data h
  simp [String.data_append] at this

/-- Every code assigned below a non-empty prefix extends that prefix. -/
theorem asg_val_extends : ∀ (t : HTree), FullH t → ∀ (pfx : String) (s c : String),
    (s, c) ∈ asg t pfx → pfx ≠ "" → ∃ tail, c.data = pfx.data ++ tail := by
  intro t hfull
  induction hfull with
  | leaf cc f =>
    intro pfx s c hmem hne
    simp [asg, hne] at hmem
    exact ⟨[], by rw [hmem.2]; simp⟩
  | node cc f l r hfl hfr ihl ihr =>
    intro pfx s c hmem hne
    rw [asg_node (FullH_ne_nil hfl)] at hmem
    rcases List.mem_append.mp hmem with h | h
    · obtain ⟨tail, ht⟩ := ihl (pfx ++ "0") s c h (append_zero_ne_empty pfx)
      refine ⟨'0' :: tail, ?_⟩
      rw [ht, String.data_append]
      simp
    · obtain ⟨tail, ht⟩ := ihr (pfx ++ "1") s c h (append_one_ne_empty pfx)
      refine ⟨'1' :: tail, ?_⟩
      rw [ht, String.data_append]
      simp

/-- Codes assigned to distinct symbols in one traversal are never prefixes of
one another: inside one subtree by induction, and across the two subtrees of
a node because the codes differ right after the common prefix. -/
theorem asg_prefix_free : ∀ (t : HTree), FullH t → ∀ (pfx : String)
    (s1 c1 s2 c2 : String),
    (s1, c1) ∈ asg t pfx → (s2, c2) ∈ asg t pfx → s1 ≠ s2 → ¬ Pfx c1.data c2.data := by
  intro t hfull
  induction hfull with
  | leaf cc f =>
    intro pfx s1 c1 s2 c2 h1 h2 hne
    simp [asg] at h1 h2
    exact absurd (h1.1.trans h2.1.symm) hne
  | node cc f l r hfl hfr ihl ihr =>
    intro pfx s1 c1 s2 c2 h1 h2 hne
    rw [asg_node (FullH_ne_nil hfl)] at h1 h2
    rcases List.mem_append.mp h1 with h1' | h1' <;>
      rcases List.mem_append.mp h2 with h2' | h2'
    · exact ihl (pfx ++ "0") s1 c1 s2 c2 h1' h2' hne
    · -- c1 starts with pfx ++ "0", c2 with pfx ++ "1"
      obtain ⟨t1, ht1⟩ := asg_val_extends l hfl _ s1 c1 h1' (append_zero_ne_empty pfx)
      obtain ⟨t2, ht2⟩ := asg_val_extends r hfr _ s2 c2 h2' (append_one_ne_empty pfx)
      rintro ⟨s, hs⟩
      rw [ht1, ht2, String.data_append, String.data_append] at hs
      simp only [List.append_assoc] at hs
      have := List.append_cancel_left hs
      simp at this
    · obtain ⟨t1, ht1⟩ := asg_val_extends r hfr _ s1 c1 h1' (append_one_ne_empty pfx)
      obtain ⟨t2, ht2⟩ := asg_val_extends l hfl _ s2 c2 h2' (append_zero_ne_empty pfx)
      rintro ⟨s, hs⟩
      rw [ht1, ht2, String.data_append, String.data_append] at hs
      simp only [List.append_assoc] at hs
      have := List.append_cancel_left hs
      simp at this
    · exact ihr (pfx ++ "1") s1 c1 s2 c2 h1' h2' hne

/-- The multiset of leaf `(symbol, frequency)` pairs of a whole heap. -/
def leavesHeap (heap : List HTree) : Multiset (String × Nat) :=
  (heap.map fun t => ((leavesH t : List (String × Nat)) : Multiset (String × Nat))).sum

theorem leavesHeap_perm {h1 h2 : List HTree} (h : h1.Perm h2) :
    leavesHeap h1 = leavesHeap h2 :=
  (h.map _).sum_eq

/-- The merge loop keeps all heap trees full and preserves the multiset of
leaves. -/
theorem hloop_invariants : ∀ (fuel : Nat) (heap : List HTree),
    (∀ x ∈ heap, FullH x) →
    (∀ x ∈ hloop fuel heap, FullH x) ∧
      leavesHeap (hloop fuel heap) = leavesHeap heap := by
  intro fuel
  induction fuel with
  | zero => intro heap h; exact ⟨h, rfl⟩
  | succ fuel ih =>
    intro heap hfull
    by_cases hl : heap.length > 1
    · rcases hs : sortBy hfreq heap with _ | ⟨a, rest1⟩
      · simp only [hloop, hl, if_true, hs]
        exact ⟨hfull, trivial⟩
      · rcases rest1 with _ | ⟨b, rest⟩
        · simp only [hloop, hl, if_true, hs]
          exact ⟨hfull, trivial⟩
        · simp only [hloop, hl, if_true, hs]
          have hperm : (a :: b :: rest).Perm heap := hs ▸ sortBy_perm hfreq heap
          have hfull' : ∀ x ∈ a :: b :: rest, FullH x :=
            fun x hx => hfull x (hperm.mem_iff.mp hx)
          have hfa : FullH a := hfull' a (by simp)
          have hfb : FullH b := hfull' b (by simp)
          have hnew : ∀ x ∈ rest ++ [HTree.nodeH "" (hfreq a + hfreq b) a b],
              FullH x := by
            intro x hx
            rcases List.mem_append.mp hx with h | h
            · exact hfull' x (by simp [h])
            · simp only [List.mem_singleton] at h
              rw [h]
              exact FullH.node _ _ _ _ hfa hfb
          obtain ⟨ih1, ih2⟩ := ih _ hnew
          refine ⟨ih1, ?_⟩
          rw [ih2, ← leavesHeap_perm hperm]
          have hm : leavesH (HTree.nodeH "" (hfreq a + hfreq b) a b) =
              leavesH a ++ leavesH b := leavesH_node (FullH_ne_nil hfa)
          simp only [leavesHeap, List.map_append, List.map_cons, List.map_nil,
            List.sum_append, List.sum_cons, List.sum_nil, hm, ← Multiset.coe_add]
          abel
    · simp only [hloop, hl, if_false]
      exact ⟨hfull, trivial⟩

theorem leavesHeap_init (freq : List (String × Nat)) :
    leavesHeap (freq.map fun kv => HTree.nodeH kv.1 kv.2 HTree.nilH HTree.nilH) =
      (freq : Multiset (String × Nat)) := by
  induction freq with
  | nil => rfl
  | cons kv rest ih =>
    simp only [List.map_cons, leavesHeap, List.sum_cons] at ih ⊢
    rw [ih]
    simp [leavesH]

/-- Every tree the builder returns is full, and its leaves are exactly the
input frequency entries (as a multiset). -/
theorem build_tree_facts (freq : List (String × Nat)) (t : HTree)
    (hok : build_huffman_tree freq = Except.ok t) :
    FullH t ∧ (leavesH t).Perm freq := by
  match freq, hok with
  | [(k, v)], hok =>
    have ht : HTree.nodeH k v HTree.nilH HTree.nilH = t := by
      have h' : (Except.ok (HTree.nodeH k v HTree.nilH HTree.nilH) : Except String HTree) =
          Except.ok t := hok
      exact Except.ok.inj h' 
    rw [← ht]
    exact ⟨FullH.leaf k v, by simp [leavesH]⟩
  | (k1, v1) :: (k2, v2) :: rest, hok =>
    set freq' : List (String × Nat) := (k1, v1) :: (k2, v2) :: rest with hfreq'
    set heap : List HTree :=
      freq'.map (fun kv => HTree.nodeH kv.1 kv.2 HTree.nilH HTree.nilH) with hheap
    have hfull0 : ∀ x ∈ heap, FullH x := by
      intro x hx
      rw [hheap, List.mem_map] at hx
      obtain ⟨kv, -, hkv⟩ := hx
      rw [← hkv]
      exact FullH.leaf kv.1 kv.2
    obtain ⟨t', ht'⟩ := hloop_singleton freq'.length heap
      (by rw [hheap]; simp) (by rw [hheap]; simp)
    obtain ⟨hf, hlv⟩ := hloop_invariants freq'.length heap hfull0
    rw [ht'] at hf hlv
    have htt : t' = t := by
      have : build_huffman_tree freq' =
          (match hloop freq'.length heap with
            | t :: _ => Except.ok t
            | [] => Except.error "IndexError") := rfl
      rw [this, ht'] at hok
      exact Except.ok.inj hok
    rw [← htt]
    refine ⟨hf t' (by simp), ?_⟩
    rw [← Multiset.coe_eq_coe]
    have h1 : leavesHeap [t'] = (leavesH t' : Multiset (String × Nat)) := by
      simp [leavesHeap]
    rw [← h1, hlv, hheap, leavesHeap_init]

/-- Claim C2: for a frequency mapping (non-empty, distinct keys as in a
Python dict) from which `build_huffman_tree` returns a tree, the code map
produced by `build_huffman_codes` is prefix-free: distinct symbols never
receive codes where one is a prefix of the other. -/
theorem huffman_prefix_free (freq : List (String × Nat)) (t : HTree)
    (hnodup : (freq.map Prod.fst).Nodup)
    (hok : build_huffman_tree freq = Except.ok t) :
    ∀ s1 c1 s2 c2 : String, (s1, c1) ∈ build_huffman_codes t "" [] →
      (s2, c2) ∈ build_huffman_codes t "" [] → s1 ≠ s2 →
      ¬ Pfx c1.data c2.data := by
  obtain ⟨hfull, hperm⟩ := build_tree_facts freq t hok
  have hchars : (leafChars t).Perm (freq.map Prod.fst) := hperm.map Prod.fst
  have hnodupt : (leafChars t).Nodup := hchars.nodup_iff.mpr hnodup
  have hcodes : build_huffman_codes t "" [] = asg t "" := by
    have := build_huffman_codes_asg t hfull "" [] (by simp) hnodupt
    simpa using this
  rw [hcodes]
  intro s1 c1 s2 c2 h1 h2 hne
  exact asg_prefix_free t hfull "" s1 c1 s2 c2 h1 h2 hne

/-- Witness for `huffman_prefix_free` on the concrete mapping
`Set.insert ("a", 1) (Set.insert ("b", 2) ∅)`-like list `[("a",1),("b",2)]`. -/
theorem huffman_prefix_free_witness :
    (([("a", 1), ("b", 2)] : List (String × Nat)).map Prod.fst).Nodup ∧
    ¬ Pfx "0".data "1".data := by
  refine ⟨by decide, ?_⟩
  exact huffman_prefix_free [("a", 1), ("b", 2)]
    (HTree.nodeH "" 3 (HTree.nodeH "a" 1 HTree.nilH HTree.nilH)
      (HTree.nodeH "b" 2 HTree.nilH HTree.nilH))
    (by decide) rfl "a" "0" "b" "1" (by decide) (by decide) (by decide)

/-!
## Round trip: encoding then decoding recovers the tokens (claim C8)

The repository never decodes: the code map is exported as JSON and consumed
externally (lines 231-237).  Encoding and decoding are therefore modelled
from the spec ("Round-trip: encoding a token sequence with the generated
codes and decoding with the same code map recovers the original sequence
exactly").
-/

/-- Boolean prefix test on character lists. -/
def pfxB : List Char → List Char → Bool
  | [], _ => true
  | _ :: _, [] => false
  | a :: as, b :: bs => a == b && pfxB as bs

theorem pfxB_iff : ∀ a b : List Char, pfxB a b = true ↔ Pfx a b := by
  intro a
  induction a with
  | nil =>
    intro b
    simp only [pfxB, true_iff]
    exact ⟨b, rfl⟩
  | cons x as ih =>
    intro b
    cases b with
    | nil =>
      constructor
      · intro h
        simp [pfxB] at h
      · rintro ⟨s, hs⟩
        exact nomatch hs
    | cons y bs =>
      simp only [pfxB, Bool.and_eq_true, beq_iff_eq, ih]
      constructor
      · rintro ⟨rfl, s, rfl⟩
        exact ⟨s, rfl⟩
      · rintro ⟨s, hs⟩
        rw [List.cons_append] at hs
        cases hs
        exact ⟨rfl, s, rfl⟩

/-- Modelled from the spec: encoding a token sequence concatenates each
token's code from the code map (`None` when a token has no code). -/
def encode (codes : List (String × String)) : List String → Option String
  | [] => some ""
  | t :: ts =>
    match codes.lookup t, encode codes ts with
    | some c, some rest => some (c ++ rest)
    | _, _ => none

/-- Modelled from the spec: decoding the concatenated bit string with the
same code map — repeatedly take the (for a prefix-free map, unique) code
that is a prefix of the remaining bits, emit its symbol and drop the code.
`fuel` bounds the number of emitted symbols; every code is non-empty, so
`fuel = length of the bit string` always suffices. -/
def decodeAux (codes : List (String × String)) : Nat → List Char → Option (List String)
  | _, [] => some []
  | 0, _ :: _ => none
  | fuel + 1, b :: bs =>
    match codes.find? (fun p => pfxB p.2.data (b :: bs)) with
    | none => none
    | some (s, c) =>
      match c.data.length, decodeAux codes fuel ((b :: bs).drop c.data.length) with
      | 0, _ => none
      | _ + 1, none => none
      | _ + 1, some ts => some (s :: ts)

/-- Modelled from the spec: decode a bit string with a code map. -/
def decode (codes : List (String × String)) (bits : String) : Option (List String) :=
  decodeAux codes bits.data.length bits.data

theorem Pfx_of_Pfx_Pfx_le {a b x : List Char} (ha : Pfx a x) (hb : Pfx b x)
    (hle : a.length ≤ b.length) : Pfx a b := by
  obtain ⟨s, rfl⟩ := ha
  obtain ⟨t, ht⟩ := hb
  have h1 : (b ++ t).take a.length = a := by
    rw [← ht]
    exact List.take_left a s
  have h2 : (b ++ t).take a.length = b.take a.length :=
    List.take_append_of_le_length hle
  refine ⟨b.drop a.length, ?_⟩
  calc b = b.take a.length ++ b.drop a.length := (List.take_append_drop _ b).symm
    _ = a ++ b.drop a.length := by rw [← h2, h1]

theorem lookup_mem : ∀ (codes : List (String × String)) (s c : String),
    List.lookup s codes = some c → (s, c) ∈ codes := by
  intro codes s c
  induction codes with
  | nil => intro h; exact nomatch h
  | cons p rest ih =>
    intro h
    rw [List.lookup] at h
    cases he : s == p.1 with
    | true =>
      rw [he] at h
      have h1 : s = p.1 := by simpa using he
      have h2 : p.2 = c := Option.some.inj h
      rw [List.mem_cons]
      left
      rw [h1, ← h2]
    | false =>
      rw [he] at h
      exact List.mem_cons_of_mem p (ih h)

theorem lookup_exists : ∀ (codes : List (String × String)) (s : String),
    s ∈ codes.map Prod.fst → ∃ c, List.lookup s codes = some c := by
  intro codes s
  induction codes with
  | nil => intro h; exact absurd h (by simp)
  | cons p rest ih =>
    intro h
    rw [List.lookup]
    cases he : s == p.1 with
    | true => exact ⟨p.2, rfl⟩
    | false =>
      apply ih
      have h2 : s = p.1 ∨ ∃ x, (s, x) ∈ rest := by simpa using h
      rcases h2 with hmm | ⟨x, hx⟩
      · exfalso
        rw [hmm] at he
        simp at he
      · exact List.mem_map.mpr ⟨(s, x), hx, rfl⟩

theorem nodup_keys_entry_eq {β : Type} : ∀ (codes : List (String × β)),
    (codes.map Prod.fst).Nodup → ∀ p q, p ∈ codes → q ∈ codes → p.1 = q.1 → p = q := by
  intro codes
  induction codes with
  | nil => intro _ p q hp; exact absurd hp (by simp)
  | cons x rest ih =>
    intro hnd p q hp hq hpq
    rw [List.map_cons, List.nodup_cons] at hnd
    rcases List.mem_cons.mp hp with hp' | hp' <;>
      rcases List.mem_cons.mp hq with hq' | hq'
    · rw [hp', hq']
    · exfalso
      apply hnd.1
      rw [List.mem_map]
      exact ⟨q, hq', by rw [← hpq, hp']⟩
    · exfalso
      apply hnd.1
      rw [List.mem_map]
      exact ⟨p, hp', by rw [hpq, hq']⟩
    · exact ih hnd.2 p q hp' hq' hpq

theorem find_unique {α : Type} (P : α → Bool) : ∀ (l : List α) (x : α),
    x ∈ l → (∀ y ∈ l, P y = true → y = x) → P x = true → l.find? P = some x := by
  intro l x
  induction l with
  | nil => intro h; exact absurd h (by simp)
  | cons y rest ih =>
    intro hmem huniq hPx
    by_cases hy : P y = true
    · rw [List.find?_cons_of_pos _ hy, huniq y (by simp) hy]
    · rw [List.find?_cons_of_neg _ hy]
      have hmem' : x ∈ rest := by
        rcases List.mem_cons.mp hmem with h' | h'
        · exact absurd (h' ▸ hPx) hy
        · exact h'
      exact ih hmem' (fun z hz hP => huniq z (List.mem_cons_of_mem y hz) hP) hPx

theorem str_ne_empty_data {c : String} (h : c ≠ "") : c.data ≠ [] := by
  intro hd
  apply h
  cases c with
  | mk d =>
    rw [show d = [] from hd]

theorem decodeAux_nil (codes : List (String × String)) (fuel : Nat) :
    decodeAux codes fuel [] = some [] := by
  cases fuel with
  | zero => rfl
  | succ f => rfl

/-- Greedy decoding inverts encoding for any code map with duplicate-free
keys, non-empty codes, and pairwise prefix-freeness. -/
theorem decode_encode_aux (codes : List (String × String))
    (hnodup : (codes.map Prod.fst).Nodup)
    (hne : ∀ p ∈ codes, p.2 ≠ "")
    (hpf : ∀ p ∈ codes, ∀ q ∈ codes, p.1 ≠ q.1 → ¬ Pfx p.2.data q.2.data) :
    ∀ tokens : List String, (∀ s ∈ tokens, s ∈ codes.map Prod.fst) →
      ∃ bits : String, encode codes tokens = some bits ∧
        ∀ fuel, bits.data.length ≤ fuel →
          decodeAux codes fuel bits.data = some tokens := by
  intro tokens
  induction tokens with
  | nil =>
    intro _
    exact ⟨"", rfl, fun fuel _ => decodeAux_nil codes fuel⟩
  | cons t ts ih =>
    intro hcov
    obtain ⟨c, hc⟩ := lookup_exists codes t (hcov t (by simp))
    have hmemtc : (t, c) ∈ codes := lookup_mem codes t c hc
    obtain ⟨bs, hbs, hdec⟩ := ih (fun s hs => hcov s (by simp [hs]))
    refine ⟨c ++ bs, ?_, ?_⟩
    · simp only [encode, hc, hbs]
    · intro fuel hfuel
      have hdata : (c ++ bs).data = c.data ++ bs.data := String.data_append c bs
      have hcne : c.data ≠ [] := str_ne_empty_data (hne (t, c) hmemtc)
      rcases hq : c.data with _ | ⟨ch, crest⟩
      · exact absurd hq hcne
      rw [hdata, hq] at hfuel ⊢
      simp only [List.cons_append] at hfuel ⊢
      cases fuel with
      | zero =>
        exfalso
        simp at hfuel
      | succ f =>
        have hfind : codes.find? (fun p => pfxB p.2.data
            (ch :: (crest ++ bs.data))) = some (t, c) := by
          apply find_unique _ _ _ hmemtc
          · intro q hq2 hPq
            have hpfx : Pfx q.2.data (ch :: (crest ++ bs.data)) :=
              (pfxB_iff _ _).mp hPq
            have hcpfx : Pfx c.data (ch :: (crest ++ bs.data)) := by
              rw [hq]
              exact ⟨bs.data, by simp⟩
            by_cases hqt : q.1 = t
            · have : q = (t, c) :=
                nodup_keys_entry_eq codes hnodup q (t, c) hq2 hmemtc (by rw [hqt])
              exact this
            · exfalso
              rcases le_total q.2.data.length c.data.length with hle | hle
              · exact hpf q hq2 (t, c) hmemtc hqt (Pfx_of_Pfx_Pfx_le hpfx hcpfx hle)
              · exact hpf (t, c) hmemtc q hq2 (fun he => hqt he.symm)
                  (Pfx_of_Pfx_Pfx_le hcpfx hpfx hle)
          · rw [pfxB_iff, hq]
            exact ⟨bs.data, by simp⟩
        have hlen : c.data.length = crest.length + 1 := by rw [hq]; rfl
        have hrest : decodeAux codes f
            ((ch :: (crest ++ bs.data)).drop (crest.length + 1)) = some ts := by
          simp only [List.drop_succ_cons, List.drop_left]
          apply hdec
          simp only [List.length_cons, List.length_append] at hfuel
          omega
        simp only [decodeAux, hfind, hlen, hrest]

theorem asg_val_ne_empty : ∀ (t : HTree), FullH t → ∀ (pfx s c : String),
    (s, c) ∈ asg t pfx → c ≠ "" := by
  intro t hfull
  induction hfull with
  | leaf cc f =>
    intro pfx s c hmem
    by_cases hp : pfx = ""
    · simp [asg, hp] at hmem
      rw [hmem.2]
      decide
    · simp [asg, hp] at hmem
      rw [hmem.2]
      exact hp
  | node cc f l r hfl hfr ihl ihr =>
    intro pfx s c hmem
    rw [asg_node (FullH_ne_nil hfl)] at hmem
    rcases List.mem_append.mp hmem with h | h
    · exact ihl _ s c h
    · exact ihr _ s c h

/-- Claim C8: for every token sequence over the symbols of a frequency
mapping (non-empty, distinct keys), concatenating the tokens' codes from the
generated code map and decoding the resulting bit string with the same map
recovers the token sequence exactly. -/
theorem huffman_roundtrip (freq : List (String × Nat)) (t : HTree)
    (hnodup : (freq.map Prod.fst).Nodup)
    (hok : build_huffman_tree freq = Except.ok t)
    (tokens : List String)
    (htok : ∀ s ∈ tokens, s ∈ freq.map Prod.fst) :
    ∃ bits : String,
      encode (build_huffman_codes t "" []) tokens = some bits ∧
      decode (build_huffman_codes t "" []) bits = some tokens := by
  obtain ⟨hfull, hperm⟩ := build_tree_facts freq t hok
  have hchars : (leafChars t).Perm (freq.map Prod.fst) := hperm.map Prod.fst
  have hnodupt : (leafChars t).Nodup := hchars.nodup_iff.mpr hnodup
  have hcodes : build_huffman_codes t "" [] = asg t "" := by
    have := build_huffman_codes_asg t hfull "" [] (by simp) hnodupt
    simpa using this
  rw [hcodes]
  have hkeys : (asg t "").map Prod.fst = leafChars t := asg_keys t ""
  obtain ⟨bits, h1, h2⟩ := decode_encode_aux (asg t "")
    (by rw [hkeys]; exact hnodupt)
    (fun p hp => asg_val_ne_empty t hfull "" p.1 p.2 hp)
    (fun p hp q hq hne => asg_prefix_free t hfull "" p.1 p.2 q.1 q.2 hp hq hne)
    tokens
    (by
      intro s hs
      rw [hkeys]
      exact hchars.mem_iff.mpr (htok s hs))
  exact ⟨bits, h1, h2 bits.data.length (le_refl _)⟩

/-- Witness for `huffman_roundtrip` on a concrete mapping and token
sequence. -/
theorem huffman_roundtrip_witness :
    (([("a", 1), ("b", 2)] : List (String × Nat)).map Prod.fst).Nodup ∧
    ∃ bits : String,
      encode (build_huffman_codes
        (HTree.nodeH "" 3 (HTree.nodeH "a" 1 HTree.nilH HTree.nilH)
          (HTree.nodeH "b" 2 HTree.nilH HTree.nilH)) "" []) ["b", "a", "b"] =
        some bits ∧
      decode (build_huffman_codes
        (HTree.nodeH "" 3 (HTree.nodeH "a" 1 HTree.nilH HTree.nilH)
          (HTree.nodeH "b" 2 HTree.nilH HTree.nilH)) "" []) bits =
        some ["b", "a", "b"] :=
  ⟨by decide, huffman_roundtrip [("a", 1), ("b", 2)] _ (by decide) rfl
    ["b", "a", "b"] (by decide)⟩

/-!
## Optimality of the Huffman code (claim C3)

The cost of a code assignment on a frequency mapping is the sum over entries
of frequency times code length.  A competitor is any assignment of non-empty
binary codewords to the symbols that is prefix-free on the mapping's keys
(the spec's "prefix-free code"; per the spec "an empty string is not a valid
code").  We show the pipeline's total cost is the least element of the set of
competitor costs.
-/

/-- A codeword over the bit alphabet. -/
def Binary (c : List Char) : Prop := ∀ ch ∈ c, ch = '0' ∨ ch = '1'

/-- Total weighted code length of an assignment on a frequency mapping. -/
def totalCost (freq : List (String × Nat)) (f : String → List Char) : Nat :=
  (freq.map fun p => p.2 * (f p.1).length).sum

/-- Sum of the code lengths over the mapping (the induction measure). -/
def sumLen (freq : List (String × Nat)) (f : String → List Char) : Nat :=
  (freq.map fun p => (f p.1).length).sum

/-- A valid competitor on the mapping: non-empty binary codewords, pairwise
prefix-free on the keys. -/
def ValidOn (freq : List (String × Nat)) (f : String → List Char) : Prop :=
  (∀ s ∈ freq.map Prod.fst, f s ≠ [] ∧ Binary (f s)) ∧
  (∀ s1 ∈ freq.map Prod.fst, ∀ s2 ∈ freq.map Prod.fst, s1 ≠ s2 →
    ¬ Pfx (f s1) (f s2))

/-- The cost added by the merge loop on a weight list: repeatedly sort, take
the two smallest, pay their sum, and re-insert it at the back — the weight
shadow of `hloop`. -/
def mergeCostF (fuel : Nat) (l : List Nat) : Nat :=
  match fuel with
  | 0 => 0
  | fuel + 1 =>
    if l.length > 1 then
      match sortBy id l with
      | a :: b :: rest => a + b + mergeCostF fuel (rest ++ [a + b])
      | _ => 0
    else 0

/-- Sum of the leaf frequencies of a tree. -/
def wsumL : HTree → Nat
  | HTree.nilH => 0
  | HTree.nodeH _ f l r => if l = HTree.nilH ∧ r = HTree.nilH then f else wsumL l + wsumL r

/-- Weighted external path length of a tree: each leaf's frequency times its
depth, computed by the standard recursion. -/
def treeCost : HTree → Nat
  | HTree.nilH => 0
  | HTree.nodeH _ _ l r =>
    if l = HTree.nilH ∧ r = HTree.nilH then 0
    else treeCost l + treeCost r + wsumL l + wsumL r

/-- Weighted code length of the codes that `build_huffman_codes` assigns
below a prefix of length `d` (a root leaf gets the 1-character code "0"). -/
def asgCost : HTree → Nat → Nat
  | HTree.nilH, _ => 0
  | HTree.nodeH _ f l r, d =>
    if l = HTree.nilH ∧ r = HTree.nilH then f * (if d = 0 then 1 else d)
    else asgCost l (d + 1) + asgCost r (d + 1)

/-- The pipeline's code of a symbol, as a bit list. -/
def huffFn (t : HTree) (s : String) : List Char :=
  (((build_huffman_codes t "" []).lookup s).getD "").data

/-- Maximum of a list of naturals. -/
def natMax (l : List Nat) : Nat := l.foldr max 0

theorem le_natMax : ∀ (l : List Nat), ∀ x ∈ l, x ≤ natMax l := by
  intro l
  induction l with
  | nil => intro x hx; exact absurd hx (by simp)
  | cons y rest ih =>
    intro x hx
    rcases List.mem_cons.mp hx with h | h
    · rw [h]; exact le_max_left _ _
    · exact le_trans (ih x h) (le_max_right _ _)

theorem natMax_mem : ∀ (l : List Nat), l ≠ [] → natMax l ∈ l := by
  intro l
  induction l with
  | nil => intro h; exact absurd rfl h
  | cons y rest ih =>
    intro _
    rcases rest with _ | ⟨z, rest'⟩
    · simp [natMax]
    · rcases max_cases y (natMax (z :: rest')) with ⟨he, -⟩ | ⟨he, -⟩
      · show max y (natMax (z :: rest')) ∈ _
        rw [he]
        exact List.mem_cons_self _ _
      · show max y (natMax (z :: rest')) ∈ _
        rw [he]
        exact List.mem_cons_of_mem y (ih (by simp))

/-- Flip a bit character. -/
def flipC (c : Char) : Char := if c = '0' then '1' else '0'

/-- Sibling codeword: same word with the last bit flipped. -/
def sibC : List Char → List Char
  | [] => []
  | [x] => [flipC x]
  | x :: y :: xs => x :: sibC (y :: xs)

theorem flipC_ne (x : Char) : flipC x ≠ x := by
  by_cases h : x = '0'
  · rw [h]; decide
  · simp only [flipC, h, if_false]
    exact fun hc => h hc.symm

theorem sibC_append_singleton : ∀ (p : List Char) (x : Char),
    sibC (p ++ [x]) = p ++ [flipC x] := by
  intro p
  induction p with
  | nil => intro x; rfl
  | cons y p ih =>
    intro x
    cases p with
    | nil => rfl
    | cons z p' =>
      show y :: sibC ((z :: p') ++ [x]) = y :: ((z :: p') ++ [flipC x])
      rw [ih x]

theorem length_sibC_append (p : List Char) (x : Char) :
    (sibC (p ++ [x])).length = p.length + 1 := by
  rw [sibC_append_singleton]
  simp

theorem sibC_ne_self_append (p : List Char) (x : Char) : sibC (p ++ [x]) ≠ p ++ [x] := by
  rw [sibC_append_singleton]
  intro h
  have := List.append_cancel_left h
  simp at this
  exact flipC_ne x this

theorem Pfx_refl (a : List Char) : Pfx a a := ⟨[], by simp⟩

theorem Pfx_trans {a b c : List Char} (h1 : Pfx a b) (h2 : Pfx b c) : Pfx a c := by
  obtain ⟨s, rfl⟩ := h1
  obtain ⟨t, rfl⟩ := h2
  exact ⟨s ++ t, by simp⟩

theorem Pfx_length_le {a b : List Char} (h : Pfx a b) : a.length ≤ b.length := by
  obtain ⟨s, rfl⟩ := h
  simp

theorem Pfx_eq_of_length_eq {a b : List Char} (h : Pfx a b)
    (hl : a.length = b.length) : a = b := by
  obtain ⟨s, rfl⟩ := h
  simp at hl
  rw [hl]
  simp

/-- A binary word extending all but the last bit of `p ++ [x]` and at least
as long continues with either `x` or its flip. -/
theorem ext_bit {p : List Char} {x : Char} {d : List Char}
    (hbx : x = '0' ∨ x = '1') (hbd : Binary d)
    (hp : Pfx p d) (hlen : p.length + 1 ≤ d.length) :
    Pfx (p ++ [x]) d ∨ Pfx (p ++ [flipC x]) d := by
  obtain ⟨t, rfl⟩ := hp
  have ht : t ≠ [] := by
    intro h
    rw [h] at hlen
    simp at hlen
  rcases t with _ | ⟨tc, t'⟩
  · exact absurd rfl ht
  have hbtc : tc = '0' ∨ tc = '1' := hbd tc (by simp)
  by_cases he : tc = x
  · left
    refine ⟨t', ?_⟩
    rw [he]
    simp
  · right
    have : tc = flipC x := by
      rcases hbx with rfl | rfl <;> rcases hbtc with rfl | rfl
      · exact absurd rfl he
      · rfl
      · rfl
      · exact absurd rfl he
    refine ⟨t', ?_⟩
    rw [← this]
    simp

theorem map_insBy {α : Type} (key : α → Nat) (x : α) : ∀ (l : List α),
    (insBy key x l).map key = insBy id (key x) (l.map key) := by
  intro l
  induction l with
  | nil => rfl
  | cons y ys ih =>
    by_cases h : key x ≤ key y
    · simp [insBy, h]
    · simp only [insBy, h, if_false, List.map_cons]
      rw [ih]
      simp [insBy, h]

theorem map_sortBy {α : Type} (key : α → Nat) : ∀ (l : List α),
    (sortBy key l).map key = sortBy id (l.map key) := by
  intro l
  induction l with
  | nil => rfl
  | cons x xs ih =>
    show (insBy key x (sortBy key xs)).map key = insBy id (key x) (sortBy id (xs.map key))
    rw [map_insBy, ih]

theorem sortBy_id_eq_of_perm {l l' : List Nat} (h : l.Perm l') :
    sortBy id l = sortBy id l' := by
  have hs1 : List.Sorted (· ≤ ·) (sortBy id l) := sortBy_sorted id l
  have hs2 : List.Sorted (· ≤ ·) (sortBy id l') := sortBy_sorted id l'
  exact List.eq_of_perm_of_sorted
    ((sortBy_perm id l).trans (h.trans (sortBy_perm id l').symm)) hs1 hs2

theorem mergeCostF_perm : ∀ (fuel : Nat) {l l' : List Nat}, l.Perm l' →
    mergeCostF fuel l = mergeCostF fuel l' := by
  intro fuel
  cases fuel with
  | zero => intro l l' _; rfl
  | succ f =>
    intro l l' h
    show mergeCostF (f + 1) l = mergeCostF (f + 1) l'
    simp only [mergeCostF]
    rw [h.length_eq, sortBy_id_eq_of_perm h]

theorem totalCost_perm {freq freq' : List (String × Nat)} (h : freq.Perm freq')
    (f : String → List Char) : totalCost freq f = totalCost freq' f :=
  (h.map _).sum_eq

theorem sumLen_perm {freq freq' : List (String × Nat)} (h : freq.Perm freq')
    (f : String → List Char) : sumLen freq f = sumLen freq' f :=
  (h.map _).sum_eq

theorem totalCost_congr {freq : List (String × Nat)} {f g : String → List Char}
    (h : ∀ s ∈ freq.map Prod.fst, f s = g s) : totalCost freq f = totalCost freq g := by
  unfold totalCost
  congr 1
  apply List.map_congr_left
  intro p hp
  rw [h p.1 (List.mem_map.mpr ⟨p, hp, rfl⟩)]

theorem sumLen_congr {freq : List (String × Nat)} {f g : String → List Char}
    (h : ∀ s ∈ freq.map Prod.fst, f s = g s) : sumLen freq f = sumLen freq g := by
  unfold sumLen
  congr 1
  apply List.map_congr_left
  intro p hp
  rw [h p.1 (List.mem_map.mpr ⟨p, hp, rfl⟩)]

/-- Pointwise update of an assignment, Python-style `f[a] = c`. -/
def updF (f : String → List Char) (a : String) (c : List Char) : String → List Char :=
  fun s => if s = a then c else f s

/-- Transposition of two symbols. -/
def swapKeys (u v s : String) : String := if s = u then v else if s = v then u else s

/-- Exchange the codes of two symbols. -/
def swapF (f : String → List Char) (u v : String) : String → List Char :=
  fun s => f (swapKeys u v s)

theorem swapKeys_invol (u v s : String) : swapKeys u v (swapKeys u v s) = s := by
  unfold swapKeys
  by_cases h1 : s = u
  · by_cases h2 : v = u <;> simp [h1, h2]
  · by_cases h2 : s = v
    · simp [h1, h2]
    · simp [h1, h2]

theorem swapKeys_mem {u v s : String} {keys : List String} (hu : u ∈ keys)
    (hv : v ∈ keys) (hs : s ∈ keys) : swapKeys u v s ∈ keys := by
  unfold swapKeys
  by_cases h1 : s = u
  · simp [h1, hv]
  · by_cases h2 : s = v
    · by_cases h3 : v = u
      · simp [h1, h2, h3, hu]
      · simp [h1, h2, h3, hu]
    · simp [h1, h2, hs]

theorem swapKeys_inj {u v s1 s2 : String} (h : swapKeys u v s1 = swapKeys u v s2) :
    s1 = s2 := by
  have := congrArg (swapKeys u v) h
  rwa [swapKeys_invol, swapKeys_invol] at this

theorem totalCost_cons (q : String × Nat) (rest : List (String × Nat))
    (f : String → List Char) :
    totalCost (q :: rest) f = q.2 * (f q.1).length + totalCost rest f := by
  simp [totalCost]

theorem sumLen_cons (q : String × Nat) (rest : List (String × Nat))
    (f : String → List Char) :
    sumLen (q :: rest) f = (f q.1).length + sumLen rest f := by
  simp [sumLen]

theorem updF_totalCost : ∀ (freq : List (String × Nat)),
    (freq.map Prod.fst).Nodup → ∀ {a : String} {wa : Nat}, (a, wa) ∈ freq →
    ∀ (f : String → List Char) (c : List Char),
    totalCost freq (updF f a c) + wa * (f a).length =
      totalCost freq f + wa * c.length := by
  intro freq
  induction freq with
  | nil => intro _ a wa ha; exact absurd ha (by simp)
  | cons q rest ih =>
    intro hnd a wa ha f c
    rw [List.map_cons, List.nodup_cons] at hnd
    rw [totalCost_cons, totalCost_cons]
    by_cases hq : q.1 = a
    · have hqa : q = (a, wa) := by
        rcases List.mem_cons.mp ha with h | h
        · exact h.symm
        · exfalso
          apply hnd.1
          rw [hq]
          exact List.mem_map.mpr ⟨(a, wa), h, rfl⟩
      have hrest : totalCost rest (updF f a c) = totalCost rest f := by
        apply totalCost_congr
        intro s hs
        have hsa : s ≠ a := by
          intro hsa
          apply hnd.1
          rw [hq, ← hsa]
          exact hs
        simp [updF, hsa]
      rw [hqa, hrest]
      show wa * ((updF f a c) a).length + totalCost rest f + wa * (f a).length =
        wa * (f a).length + totalCost rest f + wa * c.length
      have hval : (updF f a c) a = c := by simp [updF]
      rw [hval]
      omega
    · have ha' : (a, wa) ∈ rest := by
        rcases List.mem_cons.mp ha with h | h
        · exact absurd (congrArg Prod.fst h).symm hq
        · exact h
      have hhd : (updF f a c) q.1 = f q.1 := by simp [updF, hq]
      have := ih hnd.2 ha' f c
      rw [hhd]
      omega

theorem updF_sumLen : ∀ (freq : List (String × Nat)),
    (freq.map Prod.fst).Nodup → ∀ {a : String} {wa : Nat}, (a, wa) ∈ freq →
    ∀ (f : String → List Char) (c : List Char),
    sumLen freq (updF f a c) + (f a).length = sumLen freq f + c.length := by
  intro freq
  induction freq with
  | nil => intro _ a wa ha; exact absurd ha (by simp)
  | cons q rest ih =>
    intro hnd a wa ha f c
    rw [List.map_cons, List.nodup_cons] at hnd
    rw [sumLen_cons, sumLen_cons]
    by_cases hq : q.1 = a
    · have hqa : q = (a, wa) := by
        rcases List.mem_cons.mp ha with h | h
        · exact h.symm
        · exfalso
          apply hnd.1
          rw [hq]
          exact List.mem_map.mpr ⟨(a, wa), h, rfl⟩
      have hrest : sumLen rest (updF f a c) = sumLen rest f := by
        apply sumLen_congr
        intro s hs
        have hsa : s ≠ a := by
          intro hsa
          apply hnd.1
          rw [hq, ← hsa]
          exact hs
        simp [updF, hsa]
      rw [hqa, hrest]
      show ((updF f a c) a).length + sumLen rest f + (f a).length =
        (f a).length + sumLen rest f + c.length
      have hval : (updF f a c) a = c := by simp [updF]
      rw [hval]
      omega
    · have ha' : (a, wa) ∈ rest := by
        rcases List.mem_cons.mp ha with h | h
        · exact absurd (congrArg Prod.fst h).symm hq
        · exact h
      have hhd : (updF f a c) q.1 = f q.1 := by simp [updF, hq]
      have := ih hnd.2 ha' f c
      rw [hhd]
      omega

theorem cross_mul_le {a b c d : Nat} (h1 : a ≤ b) (h2 : c ≤ d) :
    a * d + b * c ≤ a * c + b * d := by
  obtain ⟨e, rfl⟩ := Nat.exists_eq_add_of_le h1
  obtain ⟨k, rfl⟩ := Nat.exists_eq_add_of_le h2
  have h3 : a * (c + k) + (a + e) * c = a * c + (a + e) * c + a * k := by ring
  have h4 : a * c + (a + e) * (c + k) = a * c + (a + e) * c + a * k + e * k := by ring
  omega

theorem length_sibC : ∀ c : List Char, (sibC c).length = c.length := by
  intro c
  induction c with
  | nil => rfl
  | cons x rest ih =>
    cases rest with
    | nil => rfl
    | cons y t => simp only [sibC, List.length_cons] at ih ⊢; omega

theorem flipC_binary (x : Char) : flipC x = '0' ∨ flipC x = '1' := by
  by_cases h : x = '0' <;> simp [flipC, h]

theorem Binary_dropLast {c : List Char} (h : Binary c) : Binary c.dropLast :=
  fun ch hch => h ch ((List.dropLast_sublist c).subset hch)

theorem binary_singleton {c : List Char} (hb : Binary c) (hl : c.length = 1) :
    c = ['0'] ∨ c = ['1'] := by
  rcases c with _ | ⟨ch, _ | ⟨d, tail⟩⟩
  · simp at hl
  · rcases hb ch (by simp) with rfl | rfl
    · left; rfl
    · right; rfl
  · simp at hl

theorem swapF_fst (f : String → List Char) (u v : String) : swapF f u v u = f v := by
  simp [swapF, swapKeys]

theorem swapF_snd (f : String → List Char) (u v : String) : swapF f u v v = f u := by
  by_cases h : v = u
  · simp [swapF, swapKeys, h]
  · simp [swapF, swapKeys, h]

theorem swapF_other (f : String → List Char) (u v s : String) (h1 : s ≠ u)
    (h2 : s ≠ v) : swapF f u v s = f s := by
  simp [swapF, swapKeys, h1, h2]

theorem swapF_self (f : String → List Char) (u : String) : swapF f u u = f := by
  funext s
  by_cases h : s = u <;> simp [swapF, swapKeys, h]

theorem swapF_eq_updF (f : String → List Char) (u v : String) :
    swapF f u v = updF (updF f u (f v)) v (f u) := by
  funext s
  by_cases h1 : s = u <;> by_cases h2 : s = v
  · subst h1
    simp [swapF, swapKeys, updF, h2]
  · subst h1
    simp [swapF, swapKeys, updF, h2]
  · subst h2
    simp [swapF, swapKeys, updF, h1]
  · simp [swapF, swapKeys, updF, h1, h2]

theorem swapF_totalCost {freq : List (String × Nat)}
    (hnd : (freq.map Prod.fst).Nodup) {u v : String} {wu wv : Nat}
    (hu : (u, wu) ∈ freq) (hv : (v, wv) ∈ freq) (huv : u ≠ v)
    (f : String → List Char) :
    totalCost freq (swapF f u v) + wu * (f u).length + wv * (f v).length =
      totalCost freq f + wu * (f v).length + wv * (f u).length := by
  rw [swapF_eq_updF]
  have h1 := updF_totalCost freq hnd hu f (f v)
  have h2 := updF_totalCost freq hnd hv (updF f u (f v)) (f u)
  have h3 : updF f u (f v) v = f v := by simp [updF, Ne.symm huv]
  rw [h3] at h2
  omega

theorem swapF_sumLen {freq : List (String × Nat)}
    (hnd : (freq.map Prod.fst).Nodup) {u v : String} {wu wv : Nat}
    (hu : (u, wu) ∈ freq) (hv : (v, wv) ∈ freq) (huv : u ≠ v)
    (f : String → List Char) :
    sumLen freq (swapF f u v) = sumLen freq f := by
  rw [swapF_eq_updF]
  have h1 := updF_sumLen freq hnd hu f (f v)
  have h2 := updF_sumLen freq hnd hv (updF f u (f v)) (f u)
  have h3 : updF f u (f v) v = f v := by simp [updF, Ne.symm huv]
  rw [h3] at h2
  omega

theorem ValidOn_swapF {freq : List (String × Nat)} {f : String → List Char}
    (hval : ValidOn freq f) {u v : String}
    (hu : u ∈ freq.map Prod.fst) (hv : v ∈ freq.map Prod.fst) :
    ValidOn freq (swapF f u v) := by
  constructor
  · intro s hs
    exact hval.1 (swapKeys u v s) (swapKeys_mem hu hv hs)
  · intro s1 h1 s2 h2 hne
    exact hval.2 _ (swapKeys_mem hu hv h1) _ (swapKeys_mem hu hv h2)
      (fun he => hne (swapKeys_inj he))

theorem ValidOn_perm {freq freq' : List (String × Nat)} (hp : freq.Perm freq')
    {f : String → List Char} (h : ValidOn freq f) : ValidOn freq' f := by
  have hm : ∀ s : String, s ∈ freq'.map Prod.fst → s ∈ freq.map Prod.fst :=
    fun s hs => (hp.map Prod.fst).mem_iff.mpr hs
  exact ⟨fun s hs => h.1 s (hm s hs),
    fun s1 h1 s2 h2 hne => h.2 s1 (hm s1 h1) s2 (hm s2 h2) hne⟩

theorem swap_step {freq : List (String × Nat)} {f : String → List Char}
    {u v : String} {wu wv : Nat}
    (hnd : (freq.map Prod.fst).Nodup) (hval : ValidOn freq f)
    (hu : (u, wu) ∈ freq) (hv : (v, wv) ∈ freq)
    (hw : wu ≤ wv) (hl : (f u).length ≤ (f v).length) :
    ValidOn freq (swapF f u v) ∧ totalCost freq (swapF f u v) ≤ totalCost freq f ∧
      sumLen freq (swapF f u v) = sumLen freq f := by
  by_cases huv : u = v
  · subst huv
    rw [swapF_self]
    exact ⟨hval, le_refl _, rfl⟩
  · refine ⟨ValidOn_swapF hval (List.mem_map.mpr ⟨(u, wu), hu, rfl⟩)
      (List.mem_map.mpr ⟨(v, wv), hv, rfl⟩), ?_, swapF_sumLen hnd hu hv huv f⟩
    have h1 := swapF_totalCost hnd hu hv huv f
    have h2 := cross_mul_le hw hl
    omega

/-- Shortening a maximum-length code whose sibling word is claimed by no
code keeps the assignment valid and does not increase the cost. -/
theorem shorten_step {freq : List (String × Nat)} {f : String → List Char}
    {s : String} {ws : Nat}
    (hnd : (freq.map Prod.fst).Nodup) (hval : ValidOn freq f)
    (hs : (s, ws) ∈ freq)
    (hmax : ∀ q ∈ freq, (f q.1).length ≤ (f s).length)
    (hL2 : 2 ≤ (f s).length)
    (hA : ∀ s' ∈ freq.map Prod.fst, ¬ Pfx (f s') (sibC (f s))) :
    ValidOn freq (updF f s (f s).dropLast) ∧
    totalCost freq (updF f s (f s).dropLast) ≤ totalCost freq f ∧
    sumLen freq (updF f s (f s).dropLast) + 1 = sumLen freq f := by
  have hsk : s ∈ freq.map Prod.fst := List.mem_map.mpr ⟨(s, ws), hs, rfl⟩
  have hfs_ne : f s ≠ [] := (hval.1 s hsk).1
  have hfs_bin : Binary (f s) := (hval.1 s hsk).2
  have hdec : (f s).dropLast ++ [(f s).getLast hfs_ne] = f s :=
    List.dropLast_append_getLast hfs_ne
  have hplen : (f s).dropLast.length + 1 = (f s).length := by
    rw [List.length_dropLast]
    omega
  have hsibeq : sibC (f s) = (f s).dropLast ++ [flipC ((f s).getLast hfs_ne)] := by
    conv_lhs => rw [← hdec]
    rw [sibC_append_singleton]
  have hchb : (f s).getLast hfs_ne = '0' ∨ (f s).getLast hfs_ne = '1' :=
    hfs_bin _ (List.getLast_mem hfs_ne)
  have hppfx : Pfx (f s).dropLast (f s) := ⟨[(f s).getLast hfs_ne], hdec.symm⟩
  refine ⟨⟨?_, ?_⟩, ?_, ?_⟩
  · intro s2 hs2
    by_cases he : s2 = s
    · subst he
      have hv : updF f s2 (f s2).dropLast s2 = (f s2).dropLast := by simp [updF]
      rw [hv]
      refine ⟨?_, Binary_dropLast hfs_bin⟩
      intro h
      have : (f s2).dropLast.length = 0 := by rw [h]; rfl
      omega
    · have hv : updF f s (f s).dropLast s2 = f s2 := by simp [updF, he]
      rw [hv]
      exact hval.1 s2 hs2
  · intro s1 hs1 s2 hs2 hne
    by_cases h1 : s1 = s <;> by_cases h2 : s2 = s
    · exact absurd (h1.trans h2.symm) hne
    · subst h1
      have hv1 : updF f s1 (f s1).dropLast s1 = (f s1).dropLast := by simp [updF]
      have hv2 : updF f s1 (f s1).dropLast s2 = f s2 := by simp [updF, h2]
      rw [hv1, hv2]
      intro hpfx
      by_cases hlong : (f s1).length ≤ (f s2).length
      · rcases ext_bit hchb (hval.1 s2 hs2).2 hpfx (by omega) with hx | hx
        · rw [hdec] at hx
          exact hval.2 s1 hs1 s2 hs2 hne hx
        · rw [← hsibeq] at hx
          have hle2 : (f s2).length ≤ (f s1).length := by
            obtain ⟨q2, hq2, hq21⟩ := List.mem_map.mp hs2
            rw [← hq21]
            exact hmax q2 hq2
          have hlsib : (sibC (f s1)).length = (f s1).length := length_sibC _
          have heq : sibC (f s1) = f s2 :=
            Pfx_eq_of_length_eq hx (by have := Pfx_length_le hx; omega)
          apply hA s2 hs2
          rw [← heq]
          exact Pfx_refl _
      · have heq : (f s1).dropLast = f s2 :=
          Pfx_eq_of_length_eq hpfx (by have := Pfx_length_le hpfx; omega)
        exact hval.2 s2 hs2 s1 hs1 (fun h => hne h.symm) (by rw [← heq]; exact hppfx)
    · subst h2
      have hv1 : updF f s2 (f s2).dropLast s1 = f s1 := by simp [updF, h1]
      have hv2 : updF f s2 (f s2).dropLast s2 = (f s2).dropLast := by simp [updF]
      rw [hv1, hv2]
      intro hpfx
      exact hval.2 s1 hs1 s2 hs2 hne (Pfx_trans hpfx hppfx)
    · have hv1 : updF f s (f s).dropLast s1 = f s1 := by simp [updF, h1]
      have hv2 : updF f s (f s).dropLast s2 = f s2 := by simp [updF, h2]
      rw [hv1, hv2]
      exact hval.2 s1 hs1 s2 hs2 hne
  · have h1 := updF_totalCost freq hnd hs f (f s).dropLast
    have h3 : ws * (f s).dropLast.length ≤ ws * (f s).length :=
      Nat.mul_le_mul_left ws (by omega)
    omega
  · have h1 := updF_sumLen freq hnd hs f (f s).dropLast
    omega

/-- If some code is a prefix of the sibling word of a maximum-length code,
it is that sibling word exactly, and belongs to another symbol. -/
theorem sibling_of_found {freq : List (String × Nat)} {f : String → List Char}
    {x y : String}
    (hval : ValidOn freq f)
    (hxk : x ∈ freq.map Prod.fst) (hyk : y ∈ freq.map Prod.fst)
    (hmax : ∀ q ∈ freq, (f q.1).length ≤ (f x).length)
    (hpfx : Pfx (f y) (sibC (f x))) :
    y ≠ x ∧ f y = sibC (f x) := by
  have hfx_ne : f x ≠ [] := (hval.1 x hxk).1
  have hdec : (f x).dropLast ++ [(f x).getLast hfx_ne] = f x :=
    List.dropLast_append_getLast hfx_ne
  have hsibeq : sibC (f x) = (f x).dropLast ++ [flipC ((f x).getLast hfx_ne)] := by
    conv_lhs => rw [← hdec]
    rw [sibC_append_singleton]
  have hlsib : (sibC (f x)).length = (f x).length := length_sibC _
  have hplen : (f x).dropLast.length + 1 = (f x).length := by
    rw [List.length_dropLast]
    have : 0 < (f x).length := List.length_pos.mpr hfx_ne
    omega
  have hyle : (f y).length ≤ (f x).length := by
    obtain ⟨qy, hqy, hqy1⟩ := List.mem_map.mp hyk
    rw [← hqy1]
    exact hmax qy hqy
  by_cases hye : (f y).length = (sibC (f x)).length
  · have heq : f y = sibC (f x) := Pfx_eq_of_length_eq hpfx hye
    refine ⟨?_, heq⟩
    intro hyx
    rw [hyx] at heq
    have heq2 : (f x).dropLast ++ [(f x).getLast hfx_ne] =
        sibC ((f x).dropLast ++ [(f x).getLast hfx_ne]) := by
      rw [hdec]
      exact heq
    exact sibC_ne_self_append _ _ heq2.symm
  · exfalso
    have hlt : (f y).length < (sibC (f x)).length :=
      lt_of_le_of_ne (Pfx_length_le hpfx) hye
    have hpp : Pfx (f x).dropLast (sibC (f x)) :=
      ⟨[flipC ((f x).getLast hfx_ne)], hsibeq⟩
    have h1 : Pfx (f y) (f x).dropLast :=
      Pfx_of_Pfx_Pfx_le hpfx hpp (by omega)
    have hppfx2 : Pfx (f x).dropLast (f x) :=
      ⟨[(f x).getLast hfx_ne], hdec.symm⟩
    have h2 : Pfx (f y) (f x) := Pfx_trans h1 hppfx2
    by_cases hyx : y = x
    · rw [hyx] at hlt
      omega
    · exact hval.2 y hyk x hxk hyx h2

/-- With at least three symbols, some valid codeword has length at least 2:
there are only two distinct non-empty binary words of length 1. -/
theorem three_codes_long {freq : List (String × Nat)} {f : String → List Char}
    (hval : ValidOn freq f) (hnd : (freq.map Prod.fst).Nodup)
    (hlen : 3 ≤ freq.length) :
    2 ≤ natMax (freq.map fun p => (f p.1).length) := by
  by_contra hcon
  push_neg at hcon
  rcases freq with _ | ⟨p1, _ | ⟨p2, _ | ⟨p3, rest⟩⟩⟩
  · simp at hlen
  · simp at hlen
  · simp at hlen
  · have hnd2 : (p1.1 :: p2.1 :: p3.1 :: rest.map Prod.fst).Nodup := hnd
    rw [List.nodup_cons, List.nodup_cons] at hnd2
    obtain ⟨hn1, hn2, -⟩ := hnd2
    have h12 : p1.1 ≠ p2.1 := fun h => hn1 (by simp [h])
    have h13 : p1.1 ≠ p3.1 := fun h => hn1 (by simp [h])
    have h23 : p2.1 ≠ p3.1 := fun h => hn2 (by simp [h])
    have hk1 : p1.1 ∈ (p1 :: p2 :: p3 :: rest).map Prod.fst := by simp
    have hk2 : p2.1 ∈ (p1 :: p2 :: p3 :: rest).map Prod.fst := by simp
    have hk3 : p3.1 ∈ (p1 :: p2 :: p3 :: rest).map Prod.fst := by simp
    have hl1 : (f p1.1).length = 1 := by
      have ha : 1 ≤ (f p1.1).length := List.length_pos.mpr (hval.1 p1.1 hk1).1
      have hb : (f p1.1).length ≤ natMax ((p1 :: p2 :: p3 :: rest).map
          fun p => (f p.1).length) :=
        le_natMax _ _ (List.mem_map.mpr ⟨p1, by simp, rfl⟩)
      omega
    have hl2 : (f p2.1).length = 1 := by
      have ha : 1 ≤ (f p2.1).length := List.length_pos.mpr (hval.1 p2.1 hk2).1
      have hb : (f p2.1).length ≤ natMax ((p1 :: p2 :: p3 :: rest).map
          fun p => (f p.1).length) :=
        le_natMax _ _ (List.mem_map.mpr ⟨p2, by simp, rfl⟩)
      omega
    have hl3 : (f p3.1).length = 1 := by
      have ha : 1 ≤ (f p3.1).length := List.length_pos.mpr (hval.1 p3.1 hk3).1
      have hb : (f p3.1).length ≤ natMax ((p1 :: p2 :: p3 :: rest).map
          fun p => (f p.1).length) :=
        le_natMax _ _ (List.mem_map.mpr ⟨p3, by simp, rfl⟩)
      omega
    have hc1 := binary_singleton (hval.1 p1.1 hk1).2 hl1
    have hc2 := binary_singleton (hval.1 p2.1 hk2).2 hl2
    have hc3 := binary_singleton (hval.1 p3.1 hk3).2 hl3
    rcases hc1 with h1 | h1 <;> rcases hc2 with h2 | h2 <;> rcases hc3 with h3 | h3
    · exact hval.2 p1.1 hk1 p2.1 hk2 h12 (by rw [h1, h2]; exact Pfx_refl _)
    · exact hval.2 p1.1 hk1 p2.1 hk2 h12 (by rw [h1, h2]; exact Pfx_refl _)
    · exact hval.2 p1.1 hk1 p3.1 hk3 h13 (by rw [h1, h3]; exact Pfx_refl _)
    · exact hval.2 p2.1 hk2 p3.1 hk3 h23 (by rw [h2, h3]; exact Pfx_refl _)
    · exact hval.2 p2.1 hk2 p3.1 hk3 h23 (by rw [h2, h3]; exact Pfx_refl _)
    · exact hval.2 p1.1 hk1 p3.1 hk3 h13 (by rw [h1, h3]; exact Pfx_refl _)
    · exact hval.2 p1.1 hk1 p2.1 hk2 h12 (by rw [h1, h2]; exact Pfx_refl _)
    · exact hval.2 p1.1 hk1 p2.1 hk2 h12 (by rw [h1, h2]; exact Pfx_refl _)

/-- The exchange argument: two minimum-weight symbols can be moved onto a
maximum-depth sibling pair without increasing the cost or changing the total
code length. -/
theorem exchange_step {freq : List (String × Nat)} {f : String → List Char}
    {a b x y : String} {wa wb : Nat}
    (hnd : (freq.map Prod.fst).Nodup) (hval : ValidOn freq f)
    (ha : (a, wa) ∈ freq) (hb : (b, wb) ∈ freq) (hab : a ≠ b)
    (hxk : x ∈ freq.map Prod.fst) (hyk : y ∈ freq.map Prod.fst) (hxy : x ≠ y)
    (hmina : ∀ q ∈ freq, wa ≤ q.2)
    (hminb : ∀ q ∈ freq, q.1 ≠ a → wb ≤ q.2)
    (hmax : ∀ q ∈ freq, (f q.1).length ≤ (f x).length)
    (hsib : f y = sibC (f x)) :
    ∃ g : String → List Char, ValidOn freq g ∧
      totalCost freq g ≤ totalCost freq f ∧ sumLen freq g = sumLen freq f ∧
      g b = sibC (g a) ∧ (g a).length = (f x).length := by
  have hak : a ∈ freq.map Prod.fst := List.mem_map.mpr ⟨(a, wa), ha, rfl⟩
  have hbk : b ∈ freq.map Prod.fst := List.mem_map.mpr ⟨(b, wb), hb, rfl⟩
  obtain ⟨qx, hqx, hqx1⟩ := List.mem_map.mp hxk
  have hx_entry : (x, qx.2) ∈ freq := by rw [← hqx1]; exact hqx
  obtain ⟨hv1, hc1, hs1⟩ := swap_step hnd hval ha hx_entry (hmina qx hqx)
    (hmax (a, wa) ha)
  have hg1a : swapF f a x a = f x := swapF_fst f a x
  -- the holder of the sibling code after the first swap
  set y1 : String := if y = a then x else y with hy1d
  have hy1a : y1 ≠ a := by
    by_cases hya : y = a
    · rw [hy1d, if_pos hya]
      intro h
      exact hxy (by rw [h, hya])
    · rw [hy1d, if_neg hya]
      exact hya
  have hg1y1 : swapF f a x y1 = f y := by
    by_cases hya : y = a
    · rw [hy1d, if_pos hya, swapF_snd, hya]
    · rw [hy1d, if_neg hya]
      exact swapF_other f a x y hya (fun h => hxy h.symm)
  have hy1k : y1 ∈ freq.map Prod.fst := by
    by_cases hya : y = a
    · rw [hy1d, if_pos hya]; exact hxk
    · rw [hy1d, if_neg hya]; exact hyk
  obtain ⟨qy, hqy, hqy1⟩ := List.mem_map.mp hy1k
  have hy1_entry : (y1, qy.2) ∈ freq := by rw [← hqy1]; exact hqy
  have hwb : wb ≤ qy.2 := by
    by_cases hby1 : y1 = b
    · have heq : (y1, qy.2) = (b, wb) :=
        nodup_keys_entry_eq freq hnd _ _ hy1_entry hb (by rw [hby1])
      have h2 := congrArg Prod.snd heq
      simp at h2
      omega
    · exact hminb qy hqy (by rw [hqy1]; exact hy1a)
  have hbl : (swapF f a x b).length ≤ (swapF f a x y1).length := by
    rw [hg1y1]
    have hsw : swapKeys a x b ∈ freq.map Prod.fst := swapKeys_mem hak hxk hbk
    obtain ⟨qk, hqk, hqk1⟩ := List.mem_map.mp hsw
    have h1 : (f (swapKeys a x b)).length ≤ (f x).length := by
      rw [← hqk1]
      exact hmax qk hqk
    have h2 : (f y).length = (f x).length := by rw [hsib, length_sibC]
    calc (swapF f a x b).length = (f (swapKeys a x b)).length := rfl
      _ ≤ (f x).length := h1
      _ = (f y).length := h2.symm
  obtain ⟨hv2, hc2, hs2⟩ := swap_step hnd hv1 hb hy1_entry hwb hbl
  have hgb : swapF (swapF f a x) b y1 b = f y := by
    rw [swapF_fst]
    exact hg1y1
  have hga : swapF (swapF f a x) b y1 a = f x := by
    rw [swapF_other _ b y1 a hab (fun h => hy1a h.symm)]
    exact hg1a
  refine ⟨swapF (swapF f a x) b y1, hv2, le_trans hc2 hc1, hs2.trans hs1, ?_, ?_⟩
  · rw [hgb, hga]
    exact hsib
  · rw [hga]

/-- Merging a valid sibling pair held by the first two entries: drop the last
bit of the first code and merge the two weights.  The result is valid on the
reduced mapping, the cost falls by exactly the merged weight, and the total
code length falls by the pair's depth plus one. -/
theorem collapse_step {qa qb : String × Nat} {restF : List (String × Nat)}
    {g : String → List Char}
    (hnd : ((qa :: qb :: restF).map Prod.fst).Nodup)
    (hval : ValidOn (qa :: qb :: restF) g)
    (hsib : g qb.1 = sibC (g qa.1))
    (hL2 : 2 ≤ (g qa.1).length) :
    ValidOn ((qa.1, qa.2 + qb.2) :: restF) (updF g qa.1 (g qa.1).dropLast) ∧
    totalCost (qa :: qb :: restF) g =
      totalCost ((qa.1, qa.2 + qb.2) :: restF) (updF g qa.1 (g qa.1).dropLast) +
        (qa.2 + qb.2) ∧
    sumLen ((qa.1, qa.2 + qb.2) :: restF) (updF g qa.1 (g qa.1).dropLast) +
        ((g qa.1).length + 1) =
      sumLen (qa :: qb :: restF) g := by
  have hnd2 : (qa.1 :: qb.1 :: restF.map Prod.fst).Nodup := hnd
  rw [List.nodup_cons, List.nodup_cons] at hnd2
  obtain ⟨ha1, hb1, hRnd⟩ := hnd2
  have hab : qa.1 ≠ qb.1 := fun h => ha1 (by simp [h])
  have haR : qa.1 ∉ restF.map Prod.fst := fun h => ha1 (by simp [h])
  have hak : qa.1 ∈ (qa :: qb :: restF).map Prod.fst := by simp
  have hbk : qb.1 ∈ (qa :: qb :: restF).map Prod.fst := by simp
  have hga_ne : g qa.1 ≠ [] := (hval.1 qa.1 hak).1
  have hga_bin : Binary (g qa.1) := (hval.1 qa.1 hak).2
  have hdec : (g qa.1).dropLast ++ [(g qa.1).getLast hga_ne] = g qa.1 :=
    List.dropLast_append_getLast hga_ne
  have hplen : (g qa.1).dropLast.length + 1 = (g qa.1).length := by
    rw [List.length_dropLast]
    omega
  have hsibeq : sibC (g qa.1) =
      (g qa.1).dropLast ++ [flipC ((g qa.1).getLast hga_ne)] := by
    conv_lhs => rw [← hdec]
    rw [sibC_append_singleton]
  have hgb_len : (g qb.1).length = (g qa.1).length := by rw [hsib, length_sibC]
  have hchb : (g qa.1).getLast hga_ne = '0' ∨ (g qa.1).getLast hga_ne = '1' :=
    hga_bin _ (List.getLast_mem hga_ne)
  have hppfx : Pfx (g qa.1).dropLast (g qa.1) :=
    ⟨[(g qa.1).getLast hga_ne], hdec.symm⟩
  have hva : updF g qa.1 (g qa.1).dropLast qa.1 = (g qa.1).dropLast := by
    simp [updF]
  refine ⟨⟨?_, ?_⟩, ?_, ?_⟩
  · intro s hsk
    simp only [List.map_cons] at hsk
    rcases List.mem_cons.mp hsk with rfl | hsR
    · rw [hva]
      refine ⟨?_, Binary_dropLast hga_bin⟩
      intro h
      have : (g qa.1).dropLast.length = 0 := by rw [h]; rfl
      omega
    · have hsne : s ≠ qa.1 := fun h => haR (h ▸ hsR)
      have hv : updF g qa.1 (g qa.1).dropLast s = g s := by simp [updF, hsne]
      rw [hv]
      exact hval.1 s (by simp [hsR])
  · intro s1 hs1 s2 hs2 hne
    simp only [List.map_cons] at hs1 hs2
    rcases List.mem_cons.mp hs1 with rfl | h1R <;>
      rcases List.mem_cons.mp hs2 with rfl | h2R
    · exact absurd rfl hne
    · have h2a : s2 ≠ qa.1 := fun h => haR (h ▸ h2R)
      have h2b : s2 ≠ qb.1 := fun h => hb1 (h ▸ h2R)
      have hv2 : updF g qa.1 (g qa.1).dropLast s2 = g s2 := by simp [updF, h2a]
      rw [hva, hv2]
      intro hpfx
      have hs2k : s2 ∈ (qa :: qb :: restF).map Prod.fst := by simp [h2R]
      by_cases hlong : (g qa.1).length ≤ (g s2).length
      · rcases ext_bit hchb (hval.1 s2 hs2k).2 hpfx (by omega) with hx | hx
        · rw [hdec] at hx
          exact hval.2 qa.1 hak s2 hs2k (fun h => h2a h.symm) hx
        · rw [← hsibeq, ← hsib] at hx
          exact hval.2 qb.1 hbk s2 hs2k (fun h => h2b h.symm) hx
      · have heq : (g qa.1).dropLast = g s2 :=
          Pfx_eq_of_length_eq hpfx (by have := Pfx_length_le hpfx; omega)
        exact hval.2 s2 hs2k qa.1 hak h2a (by rw [← heq]; exact hppfx)
    · have h1a : s1 ≠ qa.1 := fun h => haR (h ▸ h1R)
      have hv1 : updF g qa.1 (g qa.1).dropLast s1 = g s1 := by simp [updF, h1a]
      rw [hv1, hva]
      intro hpfx
      exact hval.2 s1 (by simp [h1R]) qa.1 hak h1a (Pfx_trans hpfx hppfx)
    · have h1a : s1 ≠ qa.1 := fun h => haR (h ▸ h1R)
      have h2a : s2 ≠ qa.1 := fun h => haR (h ▸ h2R)
      have hv1 : updF g qa.1 (g qa.1).dropLast s1 = g s1 := by simp [updF, h1a]
      have hv2 : updF g qa.1 (g qa.1).dropLast s2 = g s2 := by simp [updF, h2a]
      rw [hv1, hv2]
      exact hval.2 s1 (by simp [h1R]) s2 (by simp [h2R]) hne
  · have hrest : totalCost restF (updF g qa.1 (g qa.1).dropLast) =
        totalCost restF g := by
      apply totalCost_congr
      intro s hsR
      have : s ≠ qa.1 := fun h => haR (h ▸ hsR)
      simp [updF, this]
    rw [totalCost_cons, totalCost_cons, totalCost_cons, hva, hrest, hgb_len]
    have hmul : (qa.2 + qb.2) * (g qa.1).dropLast.length + (qa.2 + qb.2) =
        qa.2 * (g qa.1).length + qb.2 * (g qa.1).length := by
      have h1 : (qa.2 + qb.2) * (g qa.1).dropLast.length + (qa.2 + qb.2) =
          (qa.2 + qb.2) * ((g qa.1).dropLast.length + 1) := by ring
      rw [h1, hplen]
      ring
    have hsnd : ((qa.1, qa.2 + qb.2) : String × Nat).2 = qa.2 + qb.2 := rfl
    rw [hsnd]
    omega
  · have hrest : sumLen restF (updF g qa.1 (g qa.1).dropLast) =
        sumLen restF g := by
      apply sumLen_congr
      intro s hsR
      have : s ≠ qa.1 := fun h => haR (h ▸ hsR)
      simp [updF, this]
    rw [sumLen_cons, sumLen_cons, sumLen_cons, hva, hrest, hgb_len]
    omega

/-- One unfolding of the merge-cost recursion, phrased through the sorted
frequency list: the loop pays the two smallest weights and continues on the
mapping with those two entries merged. -/
theorem mergeCostF_cons_cons {freq : List (String × Nat)} {qa qb : String × Nat}
    {restF : List (String × Nat)}
    (hsq : sortBy Prod.snd freq = qa :: qb :: restF) :
    mergeCostF freq.length (freq.map Prod.snd) =
      qa.2 + qb.2 + mergeCostF (freq.length - 1)
        (((qa.1, qa.2 + qb.2) :: restF).map Prod.snd) := by
  have hlen : freq.length = restF.length + 2 := by
    have h := length_sortBy Prod.snd freq
    rw [hsq] at h
    simp at h
    omega
  have hmap : sortBy id (freq.map Prod.snd) =
      qa.2 :: qb.2 :: restF.map Prod.snd := by
    rw [← map_sortBy Prod.snd freq, hsq]
    rfl
  have hcond : (freq.map Prod.snd).length > 1 := by
    rw [List.length_map]
    omega
  obtain ⟨m, hm⟩ : ∃ m, freq.length = m + 1 := ⟨freq.length - 1, by omega⟩
  rw [hm]
  have hstep : mergeCostF (m + 1) (freq.map Prod.snd) =
      qa.2 + qb.2 + mergeCostF m (restF.map Prod.snd ++ [qa.2 + qb.2]) := by
    simp only [mergeCostF]
    rw [if_pos hcond, hmap]
  rw [hstep]
  have hperm2 : (restF.map Prod.snd ++ [qa.2 + qb.2]).Perm
      (((qa.1, qa.2 + qb.2) :: restF).map Prod.snd) :=
    List.perm_append_singleton _ _
  rw [mergeCostF_perm m hperm2]
  have hm1 : m + 1 - 1 = m := by omega
  rw [hm1]

/-- The heart of the lower bound, for mappings with at least three entries:
either some maximum-length code has an unclaimed sibling word and can be
shortened, or the two lightest symbols are exchanged onto a maximum-depth
sibling pair and merged, recursing through the given induction hypothesis. -/
theorem huffman_lb_main {N : Nat}
    (ih : ∀ (freq : List (String × Nat)) (f : String → List Char),
      (freq.map Prod.fst).Nodup → ValidOn freq f → sumLen freq f ≤ N →
      mergeCostF freq.length (freq.map Prod.snd) ≤ totalCost freq f)
    (freq : List (String × Nat)) (f : String → List Char)
    (hnd : (freq.map Prod.fst).Nodup) (hval : ValidOn freq f)
    (hsl : sumLen freq f ≤ N + 1) (hlen3 : 3 ≤ freq.length) :
    mergeCostF freq.length (freq.map Prod.snd) ≤ totalCost freq f := by
  have hfne : freq ≠ [] := by
    intro h
    rw [h] at hlen3
    simp at hlen3
  have hmapne : (freq.map fun p => (f p.1).length) ≠ [] := by
    intro h
    exact hfne (List.map_eq_nil_iff.mp h)
  have hLmem := natMax_mem _ hmapne
  obtain ⟨px, hpx, hpxL⟩ := List.mem_map.mp hLmem
  have hmax : ∀ q ∈ freq, (f q.1).length ≤ (f px.1).length := by
    intro q hq
    rw [hpxL]
    exact le_natMax _ _ (List.mem_map.mpr ⟨q, hq, rfl⟩)
  have hL2 : 2 ≤ (f px.1).length := by
    rw [hpxL]
    exact three_codes_long hval hnd hlen3
  by_cases hA : ∃ s ∈ freq.map Prod.fst, (f s).length = (f px.1).length ∧
      ∀ s' ∈ freq.map Prod.fst, ¬ Pfx (f s') (sibC (f s))
  · -- case A: shorten a sibling-free maximum code
    obtain ⟨s, hsk, hsL, hAs⟩ := hA
    obtain ⟨qs, hqs, hqs1⟩ := List.mem_map.mp hsk
    have hqs_entry : (s, qs.2) ∈ freq := by rw [← hqs1]; exact hqs
    have hmax' : ∀ q ∈ freq, (f q.1).length ≤ (f s).length := by
      intro q hq
      rw [hsL]
      exact hmax q hq
    have hL2' : 2 ≤ (f s).length := by rw [hsL]; exact hL2
    obtain ⟨hv', hc', hs'⟩ := shorten_step hnd hval hqs_entry hmax' hL2' hAs
    have hbound := ih freq (updF f s (f s).dropLast) hnd hv' (by omega)
    omega
  · -- case B: a maximum-depth sibling pair exists
    push_neg at hA
    obtain ⟨y, hyk, hypfx⟩ := hA px.1 (List.mem_map.mpr ⟨px, hpx, rfl⟩) rfl
    obtain ⟨hyx, hyeq⟩ := sibling_of_found hval
      (List.mem_map.mpr ⟨px, hpx, rfl⟩) hyk hmax hypfx
    -- the two lightest entries
    have hsl2 : (sortBy Prod.snd freq).length = freq.length :=
      length_sortBy Prod.snd freq
    rcases hsq : sortBy Prod.snd freq with _ | ⟨qa, _ | ⟨qb, restF⟩⟩
    · rw [hsq] at hsl2
      simp at hsl2
      omega
    · rw [hsq] at hsl2
      simp at hsl2
      omega
    have hperm : freq.Perm (qa :: qb :: restF) := by
      have h := (sortBy_perm Prod.snd freq).symm
      rw [hsq] at h
      exact h
    have hsorted := sortBy_sorted Prod.snd freq
    rw [hsq] at hsorted
    have hnd' : ((qa :: qb :: restF).map Prod.fst).Nodup :=
      ((hperm.map Prod.fst).nodup_iff).mp hnd
    have hnd2 : (qa.1 :: qb.1 :: restF.map Prod.fst).Nodup := hnd'
    rw [List.nodup_cons, List.nodup_cons] at hnd2
    obtain ⟨hq1, hq2, hRnd⟩ := hnd2
    have hab : qa.1 ≠ qb.1 := fun h => hq1 (by simp [h])
    have hqa_mem : (qa.1, qa.2) ∈ freq :=
      hperm.mem_iff.mpr (List.mem_cons_self _ _)
    have hqb_mem : (qb.1, qb.2) ∈ freq :=
      hperm.mem_iff.mpr (by simp)
    have hmina : ∀ q ∈ freq, qa.2 ≤ q.2 := by
      intro q hq
      rcases List.mem_cons.mp (hperm.mem_iff.mp hq) with rfl | hq'
      · exact le_refl _
      · rcases List.mem_cons.mp hq' with rfl | hq3
        · exact (List.sorted_cons.mp hsorted).1 q (by simp)
        · exact (List.sorted_cons.mp hsorted).1 q (by simp [hq3])
    have hminb : ∀ q ∈ freq, q.1 ≠ qa.1 → qb.2 ≤ q.2 := by
      intro q hq hq1'
      rcases List.mem_cons.mp (hperm.mem_iff.mp hq) with rfl | hq'
      · exact absurd rfl hq1'
      · rcases List.mem_cons.mp hq' with rfl | hq3
        · exact le_refl _
        · exact (List.sorted_cons.mp (List.sorted_cons.mp hsorted).2).1 q hq3
    obtain ⟨g, hvg, hcg, hslg, hgsib, hgalen⟩ := exchange_step hnd hval
      hqa_mem hqb_mem hab (List.mem_map.mpr ⟨px, hpx, rfl⟩) hyk
      (fun h => hyx h.symm) hmina hminb hmax hyeq
    have hvg2 : ValidOn (qa :: qb :: restF) g := ValidOn_perm hperm hvg
    have hL2g : 2 ≤ (g qa.1).length := by rw [hgalen]; exact hL2
    obtain ⟨hv3, he3, hs3⟩ := collapse_step hnd' hvg2 hgsib hL2g
    have hnd3 : (((qa.1, qa.2 + qb.2) :: restF).map Prod.fst).Nodup :=
      List.nodup_cons.mpr ⟨fun h => hq1 (List.mem_cons_of_mem _ h), hRnd⟩
    have hslq : sumLen (qa :: qb :: restF) g = sumLen freq g :=
      (sumLen_perm hperm g).symm
    have hbound := ih ((qa.1, qa.2 + qb.2) :: restF)
      (updF g qa.1 (g qa.1).dropLast) hnd3 hv3 (by omega)
    have hmc := mergeCostF_cons_cons hsq
    have hfl : ((qa.1, qa.2 + qb.2) :: restF).length = freq.length - 1 := by
      have := hperm.length_eq
      simp at this ⊢
      omega
    rw [hfl] at hbound
    have hcq : totalCost (qa :: qb :: restF) g = totalCost freq g :=
      (totalCost_perm hperm g).symm
    omega

/-- The lower bound: no valid competitor beats the merge loop's total cost.
Strong induction on the competitor's total code length: either some
maximum-length code can be shortened, or a maximum-depth sibling pair exists
onto which the two lightest symbols are exchanged and then merged. -/
theorem huffman_lb : ∀ (N : Nat) (freq : List (String × Nat))
    (f : String → List Char),
    (freq.map Prod.fst).Nodup → ValidOn freq f → sumLen freq f ≤ N →
    mergeCostF freq.length (freq.map Prod.snd) ≤ totalCost freq f := by
  intro N
  induction N with
  | zero =>
    intro freq f hnd hval hsl
    rcases freq with _ | ⟨p, _ | ⟨q, rest⟩⟩
    · exact Nat.zero_le _
    · exact Nat.zero_le _
    · exfalso
      have h1 : f p.1 ≠ [] := (hval.1 p.1 (by simp)).1
      have hlen : 1 ≤ (f p.1).length := List.length_pos.mpr h1
      rw [sumLen_cons] at hsl
      omega
  | succ N ih =>
    intro freq f hnd hval hsl
    by_cases hslN : sumLen freq f ≤ N
    · exact ih freq f hnd hval hslN
    rcases freq with _ | ⟨p1, _ | ⟨p2, _ | ⟨p3, rest3⟩⟩⟩
    · exact Nat.zero_le _
    · exact Nat.zero_le _
    · -- exactly two symbols: each code costs at least its weight
      rcases hs2 : sortBy id [p1.2, p2.2] with _ | ⟨a1, _ | ⟨b1, _ | ⟨c1, r1⟩⟩⟩
      · have h := length_sortBy id [p1.2, p2.2]
        rw [hs2] at h
        simp at h
      · have h := length_sortBy id [p1.2, p2.2]
        rw [hs2] at h
        simp at h
      · have hsum : a1 + b1 = p1.2 + p2.2 := by
          have hp := sortBy_perm id [p1.2, p2.2]
          rw [hs2] at hp
          have := hp.sum_eq
          simpa using this
        have hmc : mergeCostF 2 [p1.2, p2.2] = a1 + b1 := by
          simp only [mergeCostF]
          rw [if_pos (by simp : ([p1.2, p2.2] : List Nat).length > 1), hs2]
          simp [mergeCostF]
        have hne1 : 1 ≤ (f p1.1).length :=
          List.length_pos.mpr (hval.1 p1.1 (by simp)).1
        have hne2 : 1 ≤ (f p2.1).length :=
          List.length_pos.mpr (hval.1 p2.1 (by simp)).1
        have hm1 : p1.2 * 1 ≤ p1.2 * (f p1.1).length :=
          Nat.mul_le_mul_left p1.2 hne1
        have hm2 : p2.2 * 1 ≤ p2.2 * (f p2.1).length :=
          Nat.mul_le_mul_left p2.2 hne2
        show mergeCostF 2 [p1.2, p2.2] ≤ totalCost [p1, p2] f
        rw [totalCost_cons, totalCost_cons] at *
        have h0 : totalCost ([] : List (String × Nat)) f = 0 := rfl
        omega
      · have h := length_sortBy id [p1.2, p2.2]
        rw [hs2] at h
        simp at h
    · exact huffman_lb_main ih (p1 :: p2 :: p3 :: rest3) f hnd hval hsl (by simp)

theorem totalCost_append (A B : List (String × Nat)) (f : String → List Char) :
    totalCost (A ++ B) f = totalCost A f + totalCost B f := by
  simp [totalCost]

theorem lookup_append_left {β : Type} : ∀ (xs ys : List (String × β)) (s : String),
    s ∈ xs.map Prod.fst → List.lookup s (xs ++ ys) = List.lookup s xs := by
  intro xs ys s
  induction xs with
  | nil => intro h; exact absurd h (by simp)
  | cons p rest ih =>
    intro h
    rw [List.cons_append, List.lookup, List.lookup]
    cases he : s == p.1 with
    | true => rfl
    | false =>
      apply ih
      have h2 : s = p.1 ∨ s ∈ rest.map Prod.fst := by simpa using h
      rcases h2 with h2 | h2
      · exfalso
        rw [h2] at he
        simp at he
      · exact h2

theorem lookup_append_right {β : Type} : ∀ (xs ys : List (String × β)) (s : String),
    s ∉ xs.map Prod.fst → List.lookup s (xs ++ ys) = List.lookup s ys := by
  intro xs ys s
  induction xs with
  | nil => intro _; rfl
  | cons p rest ih =>
    intro h
    have hne : s ≠ p.1 := fun he => h (by simp [he])
    have he : (s == p.1) = false := by simpa using hne
    rw [List.cons_append, List.lookup, he]
    exact ih (fun hm => h (by simp [hm]))

/-- Binary-valuedness of every assigned code, provided the running prefix is
binary. -/
theorem asg_val_binary : ∀ (t : HTree), FullH t → ∀ (pfx s c : String),
    Binary pfx.data → (s, c) ∈ asg t pfx → Binary c.data := by
  intro t hfull
  induction hfull with
  | leaf cc f =>
    intro pfx s c hb hmem
    by_cases hp : pfx = ""
    · simp [asg, hp] at hmem
      rw [hmem.2]
      intro ch hch
      have h0 : ("0" : String).data = ['0'] := rfl
      rw [h0] at hch
      simp at hch
      exact Or.inl hch
    · simp [asg, hp] at hmem
      rw [hmem.2]
      exact hb
  | node cc f l r hfl hfr ihl ihr =>
    intro pfx s c hb hmem
    rw [asg_node (FullH_ne_nil hfl)] at hmem
    have hb0 : Binary (pfx ++ "0").data := by
      rw [String.data_append]
      intro ch hch
      rcases List.mem_append.mp hch with h | h
      · exact hb ch h
      · have h0 : ("0" : String).data = ['0'] := rfl
        rw [h0] at h
        simp at h
        exact Or.inl h
    have hb1 : Binary (pfx ++ "1").data := by
      rw [String.data_append]
      intro ch hch
      rcases List.mem_append.mp hch with h | h
      · exact hb ch h
      · have h0 : ("1" : String).data = ['1'] := rfl
        rw [h0] at h
        simp at h
        exact Or.inr h
    rcases List.mem_append.mp hmem with h | h
    · exact ihl _ s c hb0 h
    · exact ihr _ s c hb1 h

/-- The weighted code length of the traversal's assignment below a prefix,
summed over the tree's leaves, is `asgCost` at the prefix's length. -/
theorem totalCost_asg : ∀ (t : HTree), FullH t → (leafChars t).Nodup →
    ∀ (pfx : String),
    totalCost (leavesH t) (fun s => (((asg t pfx).lookup s).getD "").data) =
      asgCost t pfx.length := by
  intro t hfull
  induction hfull with
  | leaf c f =>
    intro _ pfx
    have hlv : leavesH (HTree.nodeH c f HTree.nilH HTree.nilH) = [(c, f)] := by
      simp [leavesH]
    by_cases hp : pfx = ""
    · subst hp
      have h1 : asg (HTree.nodeH c f HTree.nilH HTree.nilH) "" = [(c, "0")] := by
        simp [asg]
      rw [hlv, h1]
      have h2 : List.lookup c [(c, "0")] = some "0" := by simp [List.lookup]
      simp [totalCost, h2, asgCost]
      rw [show ("0" : String).length = 1 from rfl]
      omega
    · have h1 : asg (HTree.nodeH c f HTree.nilH HTree.nilH) pfx = [(c, pfx)] := by
        simp [asg, hp]
      rw [hlv, h1]
      have h2 : List.lookup c [(c, pfx)] = some pfx := by simp [List.lookup]
      have h3 : pfx.length ≠ 0 := by
        intro h
        apply str_ne_empty_data hp
        have : pfx.data.length = 0 := h
        exact List.length_eq_zero.mp this
      simp [totalCost, h2, asgCost, h3]
  | node c f l r hfl hfr ihl ihr =>
    intro hnodup pfx
    have hlne := FullH_ne_nil hfl
    have hrne := FullH_ne_nil hfr
    have hchars : leafChars (HTree.nodeH c f l r) = leafChars l ++ leafChars r := by
      simp [leafChars, leavesH_node hlne]
    rw [hchars] at hnodup
    obtain ⟨hnl, hnr, hdisj⟩ := List.nodup_append.mp hnodup
    rw [leavesH_node hlne, totalCost_append]
    have hLc : totalCost (leavesH l)
        (fun s => (((asg (HTree.nodeH c f l r) pfx).lookup s).getD "").data) =
        totalCost (leavesH l)
          (fun s => (((asg l (pfx ++ "0")).lookup s).getD "").data) := by
      apply totalCost_congr
      intro s hs
      rw [asg_node hlne, lookup_append_left]
      rw [asg_keys]
      exact hs
    have hRc : totalCost (leavesH r)
        (fun s => (((asg (HTree.nodeH c f l r) pfx).lookup s).getD "").data) =
        totalCost (leavesH r)
          (fun s => (((asg r (pfx ++ "1")).lookup s).getD "").data) := by
      apply totalCost_congr
      intro s hs
      rw [asg_node hlne, lookup_append_right]
      rw [asg_keys]
      exact fun hmem => hdisj hmem hs
    rw [hLc, hRc, ihl hnl (pfx ++ "0"), ihr hnr (pfx ++ "1")]
    have hcond : ¬(l = HTree.nilH ∧ r = HTree.nilH) := fun hc => hlne hc.1
    have hnode : asgCost (HTree.nodeH c f l r) pfx.length =
        asgCost l (pfx.length + 1) + asgCost r (pfx.length + 1) := by
      simp only [asgCost]
      rw [if_neg hcond]
    rw [hnode]
    have h0 : (pfx ++ "0").length = pfx.length + 1 := by
      rw [String.length_append]
      rfl
    have h1 : (pfx ++ "1").length = pfx.length + 1 := by
      rw [String.length_append]
      rfl
    rw [h0, h1]

/-- Below any positive depth, the assignment cost is the weighted external
path length plus the depth times the leaf-weight sum. -/
theorem asgCost_depth : ∀ (t : HTree), FullH t → ∀ d : Nat, 1 ≤ d →
    asgCost t d = treeCost t + d * wsumL t := by
  intro t hfull
  induction hfull with
  | leaf c f =>
    intro d hd
    have hd0 : ¬ d = 0 := by omega
    simp [asgCost, treeCost, wsumL, hd0]
    ring
  | node c f l r hfl hfr ihl ihr =>
    intro d hd
    have hcond : ¬(l = HTree.nilH ∧ r = HTree.nilH) :=
      fun hc => FullH_ne_nil hfl hc.1
    have h1 : asgCost (HTree.nodeH c f l r) d = asgCost l (d + 1) + asgCost r (d + 1) := by
      simp only [asgCost]
      rw [if_neg hcond]
    have h2 : treeCost (HTree.nodeH c f l r) =
        treeCost l + treeCost r + wsumL l + wsumL r := by
      simp only [treeCost]
      rw [if_neg hcond]
    have h3 : wsumL (HTree.nodeH c f l r) = wsumL l + wsumL r := by
      simp only [wsumL]
      rw [if_neg hcond]
    rw [h1, h2, h3, ihl (d + 1) (by omega), ihr (d + 1) (by omega)]
    ring

/-- At the root of a tree with at least one internal node, the assignment
cost is exactly the weighted external path length. -/
theorem asgCost_zero {c : String} {f : Nat} {l r : HTree}
    (hfull : FullH (HTree.nodeH c f l r))
    (hcond : ¬(l = HTree.nilH ∧ r = HTree.nilH)) :
    asgCost (HTree.nodeH c f l r) 0 = treeCost (HTree.nodeH c f l r) := by
  cases hfull with
  | leaf => exact absurd ⟨rfl, rfl⟩ hcond
  | node _ _ _ _ hfl hfr =>
    have h1 : asgCost (HTree.nodeH c f l r) 0 = asgCost l 1 + asgCost r 1 := by
      simp only [asgCost]
      rw [if_neg hcond]
    have h2 : treeCost (HTree.nodeH c f l r) =
        treeCost l + treeCost r + wsumL l + wsumL r := by
      simp only [treeCost]
      rw [if_neg hcond]
    rw [h1, h2, asgCost_depth l hfl 1 (le_refl 1), asgCost_depth r hfr 1 (le_refl 1)]
    ring

/-- The merge loop's cost invariant: each merge adds the two popped
frequencies to the total external path length stored in the heap. -/
theorem hloop_treeCost : ∀ (fuel : Nat) (heap : List HTree),
    (∀ x ∈ heap, FullH x) → (∀ x ∈ heap, hfreq x = wsumL x) →
    ((hloop fuel heap).map treeCost).sum =
      (heap.map treeCost).sum + mergeCostF fuel (heap.map hfreq) := by
  intro fuel
  induction fuel with
  | zero =>
    intro heap _ _
    simp [hloop, mergeCostF]
  | succ fuel ih =>
    intro heap hfull hw
    by_cases hl : heap.length > 1
    · have hlen2 : (sortBy hfreq heap).length = heap.length := length_sortBy hfreq heap
      rcases hs : sortBy hfreq heap with _ | ⟨a, rest1⟩
      · rw [hs] at hlen2
        simp at hlen2
        omega
      · rcases rest1 with _ | ⟨b, rest⟩
        · rw [hs] at hlen2
          simp at hlen2
          omega
        · have hperm : (a :: b :: rest).Perm heap := hs ▸ sortBy_perm hfreq heap
          have hfull' : ∀ x ∈ a :: b :: rest, FullH x :=
            fun x hx => hfull x (hperm.mem_iff.mp hx)
          have hw' : ∀ x ∈ a :: b :: rest, hfreq x = wsumL x :=
            fun x hx => hw x (hperm.mem_iff.mp hx)
          have hfa : FullH a := hfull' a (by simp)
          have hfb : FullH b := hfull' b (by simp)
          have hwa : hfreq a = wsumL a := hw' a (by simp)
          have hwb : hfreq b = wsumL b := hw' b (by simp)
          have hna : a ≠ HTree.nilH := FullH_ne_nil hfa
          have hfull2 : ∀ x ∈ rest ++ [HTree.nodeH "" (hfreq a + hfreq b) a b],
              FullH x := by
            intro x hx
            rcases List.mem_append.mp hx with h | h
            · exact hfull' x (by simp [h])
            · simp only [List.mem_singleton] at h
              rw [h]
              exact FullH.node _ _ _ _ hfa hfb
          have hw2 : ∀ x ∈ rest ++ [HTree.nodeH "" (hfreq a + hfreq b) a b],
              hfreq x = wsumL x := by
            intro x hx
            rcases List.mem_append.mp hx with h | h
            · exact hw' x (by simp [h])
            · simp only [List.mem_singleton] at h
              rw [h]
              show hfreq a + hfreq b = wsumL (HTree.nodeH "" (hfreq a + hfreq b) a b)
              simp only [wsumL]
              rw [if_neg (fun hc => hna hc.1), hwa, hwb]
          simp only [hloop, hl, if_true, hs]
          rw [ih _ hfull2 hw2]
          have hcond : (heap.map hfreq).length > 1 := by
            rw [List.length_map]
            exact hl
          have hmap : sortBy id (heap.map hfreq) =
              hfreq a :: hfreq b :: rest.map hfreq := by
            rw [← map_sortBy hfreq heap, hs]
            rfl
          have hmc : mergeCostF (fuel + 1) (heap.map hfreq) =
              hfreq a + hfreq b +
                mergeCostF fuel (rest.map hfreq ++ [hfreq a + hfreq b]) := by
            simp only [mergeCostF]
            rw [if_pos hcond, hmap]
          rw [hmc]
          have hm2 : (rest ++ [HTree.nodeH "" (hfreq a + hfreq b) a b]).map hfreq =
              rest.map hfreq ++ [hfreq a + hfreq b] := by
            simp [hfreq]
          rw [hm2]
          have htc_m : treeCost (HTree.nodeH "" (hfreq a + hfreq b) a b) =
              treeCost a + treeCost b + hfreq a + hfreq b := by
            simp only [treeCost]
            rw [if_neg (fun hc => hna hc.1), ← hwa, ← hwb]
          have hm1 : ((rest ++ [HTree.nodeH "" (hfreq a + hfreq b) a b]).map
              treeCost).sum = (rest.map treeCost).sum +
                treeCost (HTree.nodeH "" (hfreq a + hfreq b) a b) := by
            simp
          have hsum_perm : (heap.map treeCost).sum =
              treeCost a + (treeCost b + (rest.map treeCost).sum) := by
            have h := (hperm.map treeCost).sum_eq
            simp only [List.map_cons, List.sum_cons] at h
            omega
          rw [hm1, htc_m, hsum_perm]
          omega
    · simp only [hloop, hl, if_false]
      have hmz : mergeCostF (fuel + 1) (heap.map hfreq) = 0 := by
        simp only [mergeCostF]
        rw [if_neg (by rw [List.length_map]; exact hl)]
      rw [hmz]
      omega

/-- The external path length of the built tree equals the merge loop's total
cost on the frequency list. -/
theorem build_tree_cost : ∀ (freq : List (String × Nat)) (t : HTree),
    build_huffman_tree freq = Except.ok t →
    2 ≤ freq.length →
    treeCost t = mergeCostF freq.length (freq.map Prod.snd) := by
  intro freq t hok hlen
  match freq, hok with
  | (k1, v1) :: (k2, v2) :: rest, hok =>
    set freq' : List (String × Nat) := (k1, v1) :: (k2, v2) :: rest with hfreq'
    set heap : List HTree :=
      freq'.map (fun kv => HTree.nodeH kv.1 kv.2 HTree.nilH HTree.nilH) with hheap
    have hfull0 : ∀ x ∈ heap, FullH x := by
      intro x hx
      rw [hheap, List.mem_map] at hx
      obtain ⟨kv, -, hkv⟩ := hx
      rw [← hkv]
      exact FullH.leaf kv.1 kv.2
    have hw0 : ∀ x ∈ heap, hfreq x = wsumL x := by
      intro x hx
      rw [hheap, List.mem_map] at hx
      obtain ⟨kv, -, hkv⟩ := hx
      rw [← hkv]
      simp [hfreq, wsumL]
    obtain ⟨t', ht'⟩ := hloop_singleton freq'.length heap
      (by rw [hheap]; simp) (by rw [hheap]; simp)
    have htt : t' = t := by
      have hdef : build_huffman_tree freq' =
          (match hloop freq'.length heap with
            | t :: _ => Except.ok t
            | [] => Except.error "IndexError") := rfl
      rw [hdef, ht'] at hok
      exact Except.ok.inj hok
    have hcost := hloop_treeCost freq'.length heap hfull0 hw0
    rw [ht'] at hcost
    have h1 : ([t'].map treeCost).sum = treeCost t' := by simp
    have h2 : (heap.map treeCost).sum = 0 := by
      apply List.sum_eq_zero
      intro x hx
      rw [List.mem_map] at hx
      obtain ⟨y, hy, hyx⟩ := hx
      rw [hheap, List.mem_map] at hy
      obtain ⟨kv, -, hkv⟩ := hy
      rw [← hyx, ← hkv]
      simp [treeCost]
    have h3 : heap.map hfreq = freq'.map Prod.snd := by
      rw [hheap, List.map_map]
      apply List.map_congr_left
      intro kv _
      rfl
    rw [h1, h2, h3] at hcost
    rw [← htt]
    simpa using hcost

/-- The pipeline's code assignment is a valid competitor: non-empty binary
codewords, pairwise prefix-free on the mapping's symbols. -/
theorem huffFn_valid (freq : List (String × Nat)) (t : HTree)
    (hnd : (freq.map Prod.fst).Nodup)
    (hok : build_huffman_tree freq = Except.ok t) :
    ValidOn freq (huffFn t) := by
  obtain ⟨hfull, hperm⟩ := build_tree_facts freq t hok
  have hchars : (leafChars t).Perm (freq.map Prod.fst) := hperm.map Prod.fst
  have hnodupt : (leafChars t).Nodup := hchars.nodup_iff.mpr hnd
  have hcodes : build_huffman_codes t "" [] = asg t "" := by
    have := build_huffman_codes_asg t hfull "" [] (by simp) hnodupt
    simpa using this
  have hfn : ∀ s, huffFn t s = (((asg t "").lookup s).getD "").data := by
    intro s
    rw [huffFn, hcodes]
  have hkeys : (asg t "").map Prod.fst = leafChars t := asg_keys t ""
  constructor
  · intro s hs
    have hsk : s ∈ (asg t "").map Prod.fst := by
      rw [hkeys]
      exact hchars.mem_iff.mpr hs
    obtain ⟨cv, hcv⟩ := lookup_exists (asg t "") s hsk
    have hmem := lookup_mem _ _ _ hcv
    rw [hfn s, hcv]
    refine ⟨?_, ?_⟩
    · exact str_ne_empty_data (asg_val_ne_empty t hfull "" s cv hmem)
    · exact asg_val_binary t hfull "" s cv
        (fun ch hch => absurd hch (by simp [show ("" : String).data = [] from rfl]))
        hmem
  · intro s1 h1 s2 h2 hne
    have h1k : s1 ∈ (asg t "").map Prod.fst := by
      rw [hkeys]
      exact hchars.mem_iff.mpr h1
    have h2k : s2 ∈ (asg t "").map Prod.fst := by
      rw [hkeys]
      exact hchars.mem_iff.mpr h2
    obtain ⟨c1, hc1⟩ := lookup_exists _ s1 h1k
    obtain ⟨c2, hc2⟩ := lookup_exists _ s2 h2k
    rw [hfn s1, hfn s2, hc1, hc2]
    exact asg_prefix_free t hfull "" s1 c1 s2 c2
      (lookup_mem _ _ _ hc1) (lookup_mem _ _ _ hc2) hne

/-- With at least two symbols, the pipeline's total weighted code length is
exactly the merge loop's total cost. -/
theorem algo_cost (freq : List (String × Nat)) (t : HTree)
    (hnd : (freq.map Prod.fst).Nodup) (hlen2 : 2 ≤ freq.length)
    (hok : build_huffman_tree freq = Except.ok t) :
    totalCost freq (huffFn t) = mergeCostF freq.length (freq.map Prod.snd) := by
  obtain ⟨hfull, hperm⟩ := build_tree_facts freq t hok
  have hchars : (leafChars t).Perm (freq.map Prod.fst) := hperm.map Prod.fst
  have hnodupt : (leafChars t).Nodup := hchars.nodup_iff.mpr hnd
  have hcodes : build_huffman_codes t "" [] = asg t "" := by
    have := build_huffman_codes_asg t hfull "" [] (by simp) hnodupt
    simpa using this
  have hfn : huffFn t = fun s => (((asg t "").lookup s).getD "").data := by
    funext s
    rw [huffFn, hcodes]
  have h1 : totalCost freq (huffFn t) = totalCost (leavesH t) (huffFn t) :=
    (totalCost_perm hperm (huffFn t)).symm
  rw [h1, hfn, totalCost_asg t hfull hnodupt ""]
  have h0 : ("" : String).length = 0 := rfl
  rw [h0]
  rcases ht : t with _ | ⟨c, f2, l, r⟩
  · rw [ht] at hfull
    exact absurd rfl (FullH_ne_nil hfull)
  · rw [ht] at hfull hperm
    have hcond : ¬(l = HTree.nilH ∧ r = HTree.nilH) := by
      intro hc
      have hlenp : (leavesH (HTree.nodeH c f2 l r)).length = freq.length :=
        hperm.length_eq
      rw [hc.1, hc.2] at hlenp
      simp [leavesH] at hlenp
      omega
    rw [asgCost_zero hfull hcond]
    rw [← ht]
    rw [← ht] at hfull hperm
    exact build_tree_cost freq t hok hlen2

/-- Claim C3: for every non-empty frequency mapping (with the distinct keys
of a Python dict) from which the builder returns a tree, the total weighted
code length of the produced code map — the sum over symbols of frequency
times code length — is the least cost achievable by any assignment of
non-empty binary prefix-free codes to the mapping's symbols. -/
theorem huffman_optimal (freq : List (String × Nat)) (t : HTree)
    (hnd : (freq.map Prod.fst).Nodup)
    (hok : build_huffman_tree freq = Except.ok t) :
    IsLeast {n : Nat | ∃ f : String → List Char,
      ValidOn freq f ∧ n = totalCost freq f} (totalCost freq (huffFn t)) := by
  constructor
  · exact ⟨huffFn t, huffFn_valid freq t hnd hok, rfl⟩
  · rintro n ⟨f, hvf, rfl⟩
    rcases freq with _ | ⟨p, _ | ⟨q, rest2⟩⟩
    · exact absurd hok (by simp [build_huffman_tree])
    · -- a single symbol: its code is "0", every competitor code is non-empty
      obtain ⟨k, v⟩ := p
      have ht : t = HTree.nodeH k v HTree.nilH HTree.nilH := by
        have hb : build_huffman_tree [(k, v)] =
            Except.ok (HTree.nodeH k v HTree.nilH HTree.nilH) := rfl
        rw [hb] at hok
        exact (Except.ok.inj hok).symm
      have hfv : huffFn t k = ['0'] := by
        rw [ht]
        have hbc : build_huffman_codes (HTree.nodeH k v HTree.nilH HTree.nilH)
            "" [] = [(k, "0")] := by
          simp [build_huffman_codes, dictInsert]
        show (((build_huffman_codes (HTree.nodeH k v HTree.nilH HTree.nilH)
            "" []).lookup k).getD "").data = ['0']
        rw [hbc]
        have h2 : List.lookup k [(k, "0")] = some "0" := by simp [List.lookup]
        rw [h2]
        rfl
      have hcost : totalCost [(k, v)] (huffFn t) = v * 1 := by
        simp [totalCost, hfv]
      have hges : 1 ≤ (f k).length :=
        List.length_pos.mpr (hvf.1 k (by simp)).1
      have h3 : v * 1 ≤ v * (f k).length := Nat.mul_le_mul_left v hges
      have h4 : totalCost [(k, v)] f = v * (f k).length := by
        simp [totalCost]
      omega
    · rw [algo_cost _ t hnd (by simp only [List.length_cons]; omega) hok]
      exact huffman_lb (sumLen (p :: q :: rest2) f) _ f hnd hvf (le_refl _)

/-- Witness for `huffman_optimal` on the two-symbol mapping
`[("a", 1), ("b", 2)]` and its built tree. -/
theorem huffman_optimal_witness :
    (([("a", 1), ("b", 2)] : List (String × Nat)).map Prod.fst).Nodup ∧
    IsLeast {n : Nat | ∃ f : String → List Char,
      ValidOn [("a", 1), ("b", 2)] f ∧ n = totalCost [("a", 1), ("b", 2)] f}
      (totalCost [("a", 1), ("b", 2)]
        (huffFn (HTree.nodeH "" 3 (HTree.nodeH "a" 1 HTree.nilH HTree.nilH)
          (HTree.nodeH "b" 2 HTree.nilH HTree.nilH)))) :=
  ⟨by decide, huffman_optimal [("a", 1), ("b", 2)]
    (HTree.nodeH "" 3 (HTree.nodeH "a" 1 HTree.nilH HTree.nilH)
      (HTree.nodeH "b" 2 HTree.nilH HTree.nilH)) (by decide) rfl⟩
